import Mathlib

/-!
# Cloudflare ingress controller

A shallow embedding of the index functions of `internal/argotunnel/informer.go`,
the audit helpers of `internal/k8s/audit.go`, the tunnel link of
`internal/argotunnel/tunnel.go` and the annotation parser of
`internal/controller/annotations.go`, followed by the properties proved about them.

Conventions of the embedding:

* a Go slice that may be `nil` is an `Option (List α)`: `none` is the nil slice,
  `some []` the empty non-nil slice;
* a Go pointer that may be `nil` is an `Option`;
* a Go `map[string]T` is a function `String → Option T`;
* Go's `len` on a string is the UTF-8 byte size;
* a channel is a numbered handle, `make` hands out the next number, and the
  channels closed so far are kept in a list;
* a function that can panic returns an `Option` (or a result type with a
  `panicked` case).
-/

set_option autoImplicit false

/-! ## Definitions -/

namespace K8s

/-- The type `intstr.IntOrString`; its field `Type` (here `Type_`) is `intstr.Int` (0)
or `intstr.String` (1). -/
structure IntOrString where
  Type_ : Int
  IntVal : Int
  StrVal : String
  deriving DecidableEq, Repr

/-- The constant `intstr.Int`. -/
def intstrInt : Int := 0

/-- The constant `intstr.String`. -/
def intstrString : Int := 1

/-- The constructor `intstr.FromInt`, which converts its argument to `int32`: the
value is wrapped into the range from -2^31 to 2^31-1. -/
def FromInt (val : Int) : IntOrString :=
  ⟨intstrInt, (val + 2147483648) % 4294967296 - 2147483648, ""⟩

/-- The constructor `intstr.FromString`. -/
def FromString (val : String) : IntOrString := ⟨intstrString, 0, val⟩

/-- The type `v1beta1.IngressTLS`. -/
structure IngressTLS where
  Hosts : List String
  SecretName : String
  deriving DecidableEq, Repr

/-- The type `v1beta1.IngressBackend`. -/
structure IngressBackend where
  ServiceName : String
  ServicePort : IntOrString
  deriving DecidableEq, Repr

/-- The type `v1beta1.HTTPIngressPath`. -/
structure HTTPIngressPath where
  Path : String
  Backend : IngressBackend
  deriving DecidableEq, Repr

/-- The type `v1beta1.HTTPIngressRuleValue`. -/
structure HTTPIngressRuleValue where
  Paths : List HTTPIngressPath
  deriving DecidableEq, Repr

/-- The type `v1beta1.IngressRule`; `HTTP` is a pointer and may be nil. -/
structure IngressRule where
  Host : String
  HTTP : Option HTTPIngressRuleValue
  deriving DecidableEq, Repr

/-- The type `v1beta1.IngressSpec`, restricted to the fields the controller reads. -/
structure IngressSpec where
  TLS : List IngressTLS
  Rules : List IngressRule
  deriving DecidableEq, Repr

/-- The type `v1beta1.Ingress`, restricted to the fields the controller reads. -/
structure Ingress where
  Name : String
  Namespace : String
  Annotations : List (String × String)
  Spec : IngressSpec
  deriving DecidableEq, Repr

/-- Go's `len` on a string: the number of bytes. -/
def len (s : String) : Nat := s.utf8ByteSize

/-- The type `v1.EndpointAddress`, restricted to the fields the tests set. -/
structure EndpointAddress where
  IP : String
  Hostname : String
  deriving DecidableEq, Repr

/-- The type `v1.EndpointSubset`, restricted to its addresses. -/
structure EndpointSubset where
  Addresses : List EndpointAddress
  deriving DecidableEq, Repr

/-- The type `v1.Endpoints`, restricted to its subsets. -/
structure Endpoints where
  Subsets : List EndpointSubset
  deriving DecidableEq, Repr

/-- The type `v1.ServicePort`, restricted to name and port number (an `int32`). -/
structure ServicePort where
  Name : String
  Port : Int
  deriving DecidableEq, Repr

/-- The type `v1.ServiceSpec`, restricted to its ports. -/
structure ServiceSpec where
  Ports : List ServicePort
  deriving DecidableEq, Repr

/-- The type `v1.Service`, restricted to its spec. -/
structure Service where
  Spec : ServiceSpec
  deriving DecidableEq, Repr

/-- The loop of `EndpointsHaveSubsets` over the subsets, returning at the first
subset with an address. -/
def subsetsLoop : List EndpointSubset → Bool
  | [] => false
  | subset :: rest => if subset.Addresses.length > 0 then true else subsetsLoop rest

/-- The function `EndpointsHaveSubsets`. -/
def EndpointsHaveSubsets (ep : Option Endpoints) : Bool :=
  match ep with
  | some ep => subsetsLoop ep.Subsets
  | none => false

/-- The loop of `GetServicePort` over the declared ports, returning at the first
port the `switch` accepts; falling off the end gives the zero values. -/
def portsLoop (port : IntOrString) : List ServicePort → Int × Bool
  | [] => (0, false)
  | servicePort :: rest =>
    if port.Type_ = intstrInt then
      if servicePort.Port = port.IntVal then (servicePort.Port, true)
      else portsLoop port rest
    else if port.Type_ = intstrString then
      if servicePort.Name = port.StrVal then (servicePort.Port, true)
      else portsLoop port rest
    else portsLoop port rest

/-- The function `GetServicePort`, returning `(val, exists)`. -/
def GetServicePort (svc : Option Service) (port : IntOrString) : Int × Bool :=
  match svc with
  | some svc => portsLoop port svc.Spec.Ports
  | none => (0, false)

/-- Whether a declared port matches a reference: by number for a reference of
integer type, by name for a reference of string type. -/
def portMatches (port : IntOrString) (servicePort : ServicePort) : Bool :=
  (decide (port.Type_ = intstrInt) && decide (servicePort.Port = port.IntVal))
    || (decide (port.Type_ = intstrString) && decide (servicePort.Name = port.StrVal))

/-- The service of the tests `service-no-str-port` and `service-no-int-port`. -/
def svcUnit : Service := { Spec := { Ports := [⟨"unit-a", 8080⟩, ⟨"unit-b", 9090⟩] } }

end K8s

namespace Argotunnel

open K8s

/-- Modelled from the spec: the declaration of `resource` is not among the sources;
it is the `{namespace, name}` identity pair, with the two string fields
`informer.go` sets. -/
structure resource where
  name : String
  namespace_ : String
  deriving DecidableEq, Repr

/-- A value of type `interface{}` handed to an index function: the nil interface,
a `*v1beta1.Ingress` (possibly a nil pointer), or a value of any other dynamic
type, given by the name `%T` prints for it. -/
inductive Obj where
  | nil
  | ingress (p : Option Ingress)
  | other (typeName : String)
  deriving DecidableEq, Repr

/-- What `%T` prints for an object. -/
def Obj.typeName : Obj → String
  | .nil => "<nil>"
  | .ingress _ => "*v1beta1.Ingress"
  | .other t => t

/-- The outcome of an index function: a nil-pointer panic, or the returned
slice and error (`none` is the nil error). -/
inductive IndexResult where
  | panicked
  | returned (idx : Option (List String)) (err : Option String)
  deriving DecidableEq, Repr

/-- The keys of a returned slice (none for a nil slice or a panic). -/
def IndexResult.keys : IndexResult → List String
  | .panicked => []
  | .returned idx _ => idx.getD []

/-- Go's `append(idx, key)` on a slice that may be nil. -/
def goAppend (idx : Option (List String)) (key : String) : Option (List String) :=
  some (idx.getD [] ++ [key])

/-- The function `itemKeyFunc`. -/
def itemKeyFunc (namespace_ name : String) : String :=
  namespace_ ++ "/" ++ name

/-- The assignment `hostsecret[host] = r` on the map. -/
def hostSecretSet (m : String → Option resource) (host : String) (r : resource) :
    String → Option resource :=
  fun h => if h = host then some r else m h

/-- The first loop of `ingressSecretIndexFunc`: the map from each host a TLS
entry lists to the secret of that entry, for entries with a secret name. -/
def ingressHostSecret (ing : Ingress) : String → Option resource :=
  ing.Spec.TLS.foldl
    (fun m tls =>
      tls.Hosts.foldl
        (fun m host =>
          if len tls.SecretName > 0 then
            hostSecretSet m host { name := tls.SecretName, namespace_ := ing.Namespace }
          else m)
        m)
    (fun _ => none)

/-- The body of the second loop of `ingressSecretIndexFunc` for one rule. -/
def secretRuleStep (hostsecret : String → Option resource) (secret : Option resource)
    (idx : Option (List String)) (rule : IngressRule) : Option (List String) :=
  if rule.HTTP.isSome && decide (len rule.Host > 0) then
    match hostsecret rule.Host with
    | some r => goAppend idx (itemKeyFunc r.namespace_ r.name)
    | none =>
      match secret with
      | some s => goAppend idx (itemKeyFunc s.namespace_ s.name)
      | none => idx
  else idx

/-- The function returned by `ingressSecretIndexFunc(secret)`. -/
def ingressSecretIndexFunc (secret : Option resource) (obj : Obj) : IndexResult :=
  match obj with
  | .ingress (some ing) =>
    let hostsecret := ingressHostSecret ing
    .returned (ing.Spec.Rules.foldl (secretRuleStep hostsecret secret) none) none
  | .ingress none => .panicked
  | o => .returned (some []) (some ("index unexpected obj type: " ++ o.typeName))

/-- The body of the inner loop of `ingressServiceIndexFunc` for one path. -/
def servicePathStep (namespace_ : String) (idx : Option (List String))
    (path : HTTPIngressPath) : Option (List String) :=
  if len path.Backend.ServiceName > 0 then
    goAppend idx (itemKeyFunc namespace_ path.Backend.ServiceName)
  else idx

/-- The body of the outer loop of `ingressServiceIndexFunc` for one rule. -/
def serviceRuleStep (namespace_ : String) (idx : Option (List String))
    (rule : IngressRule) : Option (List String) :=
  match rule.HTTP with
  | some http =>
    if len rule.Host > 0 then http.Paths.foldl (servicePathStep namespace_) idx else idx
  | none => idx

/-- The function returned by `ingressServiceIndexFunc()`. -/
def ingressServiceIndexFunc (obj : Obj) : IndexResult :=
  match obj with
  | .ingress (some ing) =>
    .returned (ing.Spec.Rules.foldl (serviceRuleStep ing.Namespace) none) none
  | .ingress none => .panicked
  | o => .returned (some []) (some ("index unexpected obj type: " ++ o.typeName))

/-- The same Ingress with another list of rules. -/
def withRules (ing : Ingress) (rules : List IngressRule) : Ingress :=
  { ing with Spec := { ing.Spec with Rules := rules } }

/-- A rule the index functions look at: `HTTP != nil` and a non-empty host. -/
def eligible (rule : IngressRule) : Bool :=
  rule.HTTP.isSome && decide (rule.Host ≠ "")

/-- Whether a TLS entry has a secret name and lists the host. -/
def namedFor (host : String) (tls : IngressTLS) : Bool :=
  decide (tls.SecretName ≠ "") && decide (host ∈ tls.Hosts)

/-- The last TLS entry, in declaration order, that has a non-empty secret name
and lists the host. -/
def lastNamedTLS (tlss : List IngressTLS) (host : String) : Option IngressTLS :=
  (tlss.filter (namedFor host)).getLast?

/-- The keys the secret index is specified to yield for one rule: nothing for a
rule without HTTP or host; else the key of the last TLS entry with a secret name
listing the host; else the default secret's key when one is configured. -/
def specSecretRuleKeys (ing : Ingress) (secret : Option resource) (rule : IngressRule) :
    List String :=
  if eligible rule then
    match lastNamedTLS ing.Spec.TLS rule.Host with
    | some t => [itemKeyFunc ing.Namespace t.SecretName]
    | none =>
      match secret with
      | some s => [itemKeyFunc s.namespace_ s.name]
      | none => []
  else []

/-- The keys the secret index returns for the Ingress restricted to some rules. -/
def secretKeysOf (secret : Option resource) (ing : Ingress) (rules : List IngressRule) :
    List String :=
  (ingressSecretIndexFunc secret (.ingress (some (withRules ing rules)))).keys

/-- An Ingress whose only TLS entry lists the host of its only rule but names no secret. -/
def ingUnnamedTLS : Ingress :=
  { Name := "unit", Namespace := "unit", Annotations := [],
    Spec := { TLS := [⟨["a.unit.com"], ""⟩], Rules := [⟨"a.unit.com", some ⟨[]⟩⟩] } }

/-- A default secret. -/
def secDefault : resource := { name := "sec-default", namespace_ := "unit" }

/-- An Ingress with two rules for the same host. -/
def ingTwice : Ingress :=
  { Name := "unit", Namespace := "unit", Annotations := [],
    Spec :=
      { TLS := [⟨["a.unit.com"], "sec-a"⟩],
        Rules := [⟨"a.unit.com", some ⟨[]⟩⟩, ⟨"a.unit.com", some ⟨[]⟩⟩] } }

/-- Modelled from the spec: the declaration of `tunnelOptions` is not among the
sources; its fields are the ones `newLinkTunnelConfig` reads, of the kinds the
annotations have (unsigned and signed integers, durations in nanoseconds, a
string, a boolean), all compared by value. -/
structure tunnelOptions where
  compressionQuality : Nat
  gracePeriod : Int
  haConnections : Int
  heartbeatCount : Nat
  heartbeatInterval : Int
  lbPool : String
  noChunkedEncoding : Bool
  retries : Nat
  deriving DecidableEq, Repr

/-- The type `tunnelRule`. -/
structure tunnelRule where
  service : resource
  secret : resource
  host : String
  port : Int
  deriving DecidableEq, Repr

/-- The type `origin.TunnelConfig`, restricted to the fields `newLinkTunnelConfig`
derives from its arguments and to the client identifier. -/
structure TunnelConfig where
  OriginUrl : String
  Hostname : String
  OriginCert : Option (List Nat)
  Retries : Nat
  HeartbeatInterval : Int
  MaxHeartbeats : Nat
  ClientID : String
  LBPool : String
  HAConnections : Int
  GracePeriod : Int
  NoChunkedEncoding : Bool
  CompressionQuality : Nat
  deriving DecidableEq, Repr

/-- The type `syncTunnelLink` without its lock, error channel and logger; a byte
slice is a list of byte values that may be nil, a channel handle a number that
may be nil. -/
structure syncTunnelLink where
  rule : tunnelRule
  cert : Option (List Nat)
  opts : tunnelOptions
  config : TunnelConfig
  quitCh : Option Nat
  stopCh : Option Nat
  deriving DecidableEq, Repr

/-- The method `host`. -/
def syncTunnelLink.host (l : syncTunnelLink) : String := l.rule.host

/-- The method `originURL`. -/
def syncTunnelLink.originURL (l : syncTunnelLink) : String := l.config.OriginUrl

/-- The method `routeRule`. -/
def syncTunnelLink.routeRule (l : syncTunnelLink) : tunnelRule := l.rule

/-- The method `originCert`. -/
def syncTunnelLink.originCert (l : syncTunnelLink) : Option (List Nat) := l.cert

/-- The method `options`. -/
def syncTunnelLink.options (l : syncTunnelLink) : tunnelOptions := l.opts

/-- The library function `bytes.Equal`: same length and same bytes, a nil slice
counting as an empty one. -/
def bytesEqual (a b : Option (List Nat)) : Bool :=
  decide (a.getD [] = b.getD [])

/-- The method `equal`, applied to another `syncTunnelLink`. -/
def syncTunnelLink.equal (l other : syncTunnelLink) : Bool :=
  if l.rule.host ≠ other.host then false
  else if l.config.OriginUrl ≠ other.originURL then false
  else if l.opts ≠ other.options then false
  else if !bytesEqual l.cert other.originCert then false
  else true

/-- The function `getOriginURL`: the format `%s.%s:%d`. -/
def getOriginURL (rule : tunnelRule) : String :=
  rule.service.name ++ "." ++ rule.service.namespace_ ++ ":" ++ toString rule.port

/-- The function `newLinkTunnelConfig`; `clientID` is the value `rand.String(32)` draws. -/
def newLinkTunnelConfig (rule : tunnelRule) (cert : Option (List Nat))
    (options : tunnelOptions) (clientID : String) : TunnelConfig :=
  { OriginUrl := getOriginURL rule
    Hostname := rule.host
    OriginCert := cert
    Retries := options.retries
    HeartbeatInterval := options.heartbeatInterval
    MaxHeartbeats := options.heartbeatCount
    ClientID := clientID
    LBPool := options.lbPool
    HAConnections := options.haConnections
    GracePeriod := options.gracePeriod
    NoChunkedEncoding := options.noChunkedEncoding
    CompressionQuality := options.compressionQuality }

/-- The function `newTunnelLink`; both channel handles start nil. -/
def newTunnelLink (rule : tunnelRule) (cert : Option (List Nat)) (options : tunnelOptions)
    (clientID : String) : syncTunnelLink :=
  { rule := rule
    cert := cert
    opts := options
    config := newLinkTunnelConfig rule cert options clientID
    quitCh := none
    stopCh := none }

/-- The rule of the translator test `ing-add-rule`. -/
def ruleUnit : tunnelRule :=
  { service := { name := "svc-a", namespace_ := "unit" }
    secret := { name := "sec-a", namespace_ := "unit" }
    host := "a.unit.com"
    port := 8080 }

/-- Options with every field at its zero value. -/
def optsZero : tunnelOptions :=
  { compressionQuality := 0, gracePeriod := 0, haConnections := 0, heartbeatCount := 0,
    heartbeatInterval := 0, lbPool := "", noChunkedEncoding := false, retries := 0 }

/-- The type `v1.Secret`, restricted to its data: a map from field name to bytes. -/
structure Secret where
  Data : String → Option (List Nat)

/-- The caches of an `informerset` the translator reads, each by its `GetByKey`
lookup on a namespace-qualified key. -/
structure informerset where
  endpoint : String → Option Endpoints
  secret : String → Option Secret
  service : String → Option Service

/-- Modelled from the spec: the declaration of `syncTranslator` is not among the
sources; it holds the caches, and the options the annotation parser yields for an
Ingress, filled with the defaults. -/
structure syncTranslator where
  informers : informerset
  options : Ingress → tunnelOptions

/-- The type `tunnelRoute`; the link map of a fresh route holds a nil link for every
key, so it is given by its keys, in insertion order and without repetition. -/
structure tunnelRoute where
  name : String
  namespace_ : String
  options : tunnelOptions
  links : List tunnelRule
  deriving DecidableEq, Repr

/-- The assignment `links[rule] = nil` on the link map: a key already present is
overwritten, not added again. -/
def linkMapSet (links : List tunnelRule) (rule : tunnelRule) : List tunnelRule :=
  if rule ∈ links then links else links ++ [rule]

/-- Modelled from the spec: the translation of one path of a rule, steps 3a to 3e
of the translator algorithm (`translator.go` is not among the sources). The backend
service is looked up by `namespace/serviceName`; its port is resolved by
`GetServicePort`; the TLS entry listing the rule's host names the secret, looked up
by `namespace/secretName`, whose data must hold `cert.pem`; the Endpoints of the
service key must have a subset with an address; only then the rule is added. -/
def translatePath (t : syncTranslator) (ing : Ingress) (rule : IngressRule)
    (links : List tunnelRule) (path : HTTPIngressPath) : List tunnelRule :=
  let key := itemKeyFunc ing.Namespace path.Backend.ServiceName
  match t.informers.service key with
  | none => links
  | some svc =>
    match GetServicePort (some svc) path.Backend.ServicePort with
    | (_, false) => links
    | (port, true) =>
      match ing.Spec.TLS.find? (fun tls => decide (rule.Host ∈ tls.Hosts)) with
      | none => links
      | some tls =>
        match t.informers.secret (itemKeyFunc ing.Namespace tls.SecretName) with
        | none => links
        | some sec =>
          match sec.Data "cert.pem" with
          | none => links
          | some _ =>
            if EndpointsHaveSubsets (t.informers.endpoint key) then
              linkMapSet links
                { service := { name := path.Backend.ServiceName, namespace_ := ing.Namespace }
                  secret := { name := tls.SecretName, namespace_ := ing.Namespace }
                  host := rule.Host
                  port := port }
            else links

/-- Modelled from the spec: step 3 of the translator algorithm for one rule; only a
rule with `HTTP != nil` and a non-empty host is translated, path by path. -/
def translateRule (t : syncTranslator) (ing : Ingress) (links : List tunnelRule)
    (rule : IngressRule) : List tunnelRule :=
  match rule.HTTP with
  | some http =>
    if len rule.Host > 0 then http.Paths.foldl (translatePath t ing rule) links else links
  | none => links

/-- Modelled from the spec: the method `getRouteFromIngress` of the translator
(`translator.go` is not among the sources): a nil Ingress gives a nil route; else
the route is named after the Ingress, carries its options and the link map built
from the rules in order. -/
def getRouteFromIngress (t : syncTranslator) (ing : Option Ingress) : Option tunnelRoute :=
  match ing with
  | none => none
  | some ing =>
    some
      { name := ing.Name
        namespace_ := ing.Namespace
        options := t.options ing
        links := ing.Spec.Rules.foldl (translateRule t ing) [] }

/-- The Ingress of the translator test `ing-add-rule`. -/
def ingAddRule : Ingress :=
  { Name := "unit", Namespace := "unit", Annotations := [],
    Spec :=
      { TLS := [⟨["a.unit.com"], "sec-a"⟩],
        Rules := [⟨"a.unit.com", some ⟨[⟨"", ⟨"svc-a", FromString "http"⟩⟩]⟩⟩] } }

/-- The translator of the test `ing-add-rule`: each cache answers for one key. -/
def trAddRule : syncTranslator :=
  { informers :=
      { endpoint := fun key =>
          if key = "unit/svc-a" then some { Subsets := [{ Addresses := [⟨"x.x.x.x", "a.unit.com"⟩] }] }
          else none
        secret := fun key =>
          if key = "unit/sec-a" then
            some { Data := fun field =>
              if field = "cert.pem" then some [115, 101, 99, 45, 97, 45, 100, 97, 116, 97]
              else none }
          else none
        service := fun key =>
          if key = "unit/svc-a" then some { Spec := { Ports := [⟨"http", 8080⟩] } } else none }
    options := fun _ => optsZero }

/-- Whether the dynamic type of the object is `*v1beta1.Ingress`. -/
def Obj.isIngress : Obj → Bool
  | .ingress _ => true
  | _ => false

/-- The paths of a rule; none when `HTTP` is nil. -/
def pathsOf (rule : IngressRule) : List HTTPIngressPath :=
  match rule.HTTP with
  | some http => http.Paths
  | none => []

/-- The keys the service index is specified to yield for one rule with HTTP and a
host: one per path with a non-empty backend service name, in path order. -/
def specServiceRuleKeys (namespace_ : String) (rule : IngressRule) : List String :=
  ((pathsOf rule).filter (fun path => decide (path.Backend.ServiceName ≠ ""))).map
    (fun path => itemKeyFunc namespace_ path.Backend.ServiceName)

/-- The key list the service index is specified to yield for an Ingress. -/
def specServiceKeys (ing : Ingress) : List String :=
  (ing.Spec.Rules.filter (fun rule => rule.HTTP.isSome && decide (rule.Host ≠ ""))).flatMap
    (specServiceRuleKeys ing.Namespace)

/-- The Ingress of the test `obj-ing-svcs`. -/
def ingSvcs : Ingress :=
  { Name := "unit", Namespace := "unit", Annotations := [],
    Spec :=
      { TLS := [],
        Rules :=
          [⟨"a.unit.com", some ⟨[⟨"", ⟨"svc-a", FromString "http"⟩⟩,
              ⟨"", ⟨"", FromString "http"⟩⟩, ⟨"", ⟨"svc-c", FromString "http"⟩⟩]⟩⟩,
           ⟨"b.unit.com", some ⟨[⟨"", ⟨"svc-d", FromString "http"⟩⟩,
              ⟨"", ⟨"", FromString "http"⟩⟩, ⟨"", ⟨"svc-f", FromString "http"⟩⟩]⟩⟩] } }

/-- The Ingress of the test `obj-ing-secs`. -/
def ingSecs : Ingress :=
  { Name := "unit", Namespace := "unit", Annotations := [],
    Spec :=
      { TLS := [⟨["a.unit.com"], "sec-a"⟩, ⟨["c.unit.com"], "sec-c"⟩, ⟨["f.unit.com"], "sec-f"⟩],
        Rules := [⟨"a.unit.com", some ⟨[]⟩⟩, ⟨"b.unit.com", some ⟨[]⟩⟩,
                  ⟨"c.unit.com", some ⟨[]⟩⟩, ⟨"d.unit.com", some ⟨[]⟩⟩] } }

/-- The state of one tunnel link in the sequential model: the link with its two
channel handles, the next handle `make` hands out, the handles closed so far in
order, and for each launch and repair task spawned the handle it captured (the
stop channel for a launch task, the quit channel for a repair task). -/
structure LinkState where
  link : syncTunnelLink
  nextCh : Nat
  closed : List Nat
  launches : List (Option Nat)
  repairs : List (Option Nat)
  deriving DecidableEq, Repr

/-- The state of a link nothing has run on yet. -/
def initState (link : syncTunnelLink) : LinkState :=
  { link := link, nextCh := 0, closed := [], launches := [], repairs := [] }

/-- Go's `make(chan struct{})`: a handle never handed out before. -/
def makeChan (s : LinkState) : Nat × LinkState :=
  (s.nextCh, { s with nextCh := s.nextCh + 1 })

/-- Go's `close(ch)`: closing a nil channel or a closed channel panics (`none`). -/
def closeChan (s : LinkState) (ch : Option Nat) : Option LinkState :=
  match ch with
  | none => none
  | some c => if c ∈ s.closed then none else some { s with closed := s.closed ++ [c] }

/-- The method `start`: the unlocked check, the check under the lock, then the two
fresh channels, the repair task and the launch task. The result is the new state
and the returned error (`none` is nil). -/
def start (s : LinkState) : Option (LinkState × Option String) :=
  if s.link.stopCh ≠ none then some (s, none)
  else if s.link.stopCh ≠ none then some (s, none)
  else
    let (stopCh, s1) := makeChan s
    let s2 := { s1 with link := { s1.link with stopCh := some stopCh } }
    let (quitCh, s3) := makeChan s2
    let s4 := { s3 with link := { s3.link with quitCh := some quitCh } }
    let s5 := { s4 with repairs := s4.repairs ++ [s4.link.quitCh] }
    let s6 := { s5 with launches := s5.launches ++ [s5.link.stopCh] }
    some (s6, none)

/-- The method `stop`: the unlocked check, the check under the lock, then both
channels are closed and both handles cleared. A panic is `none`; else the result is
the new state and the returned error (`none` is nil). -/
def stop (s : LinkState) : Option (LinkState × Option String) :=
  if s.link.stopCh = none then some (s, none)
  else if s.link.stopCh = none then some (s, none)
  else
    match closeChan s s.link.quitCh with
    | none => none
    | some s1 =>
      match closeChan s1 s1.link.stopCh with
      | none => none
      | some s2 =>
        let s3 := { s2 with link := { s2.link with quitCh := none } }
        some ({ s3 with link := { s3.link with stopCh := none } }, none)

/-- The locked section of one repair of `repairFunc`, reached after the back-off
delay: abort when the link is stopped; else close the stop channel, draw a new
client identifier (`clientID` is the value of `rand.String(32)`), install a fresh
stop channel and spawn a launch task. A panic is `none`. -/
def repairFunc (s : LinkState) (clientID : String) : Option LinkState :=
  if s.link.stopCh = none then some s
  else
    match closeChan s s.link.stopCh with
    | none => none
    | some s1 =>
      let s2 := { s1 with link := { s1.link with config := { s1.link.config with ClientID := clientID } } }
      let (stopCh, s3) := makeChan s2
      let s4 := { s3 with link := { s3.link with stopCh := some stopCh } }
      some { s4 with launches := s4.launches ++ [s4.link.stopCh] }

/-- One operation on a link: a call of `start`, a call of `stop`, or a repair that
reaches its locked section and draws the given client identifier. -/
inductive LinkOp where
  | start
  | stop
  | repair (clientID : String)
  deriving DecidableEq, Repr

/-- One step of the link. -/
def step (s : LinkState) : LinkOp → Option LinkState
  | .start => (start s).map Prod.fst
  | .stop => (stop s).map Prod.fst
  | .repair clientID => repairFunc s clientID

/-- A finite sequence of operations, run in order; a panic ends the run. -/
def run (s : LinkState) : List LinkOp → Option LinkState
  | [] => some s
  | op :: ops =>
    match step s op with
    | none => none
    | some s1 => run s1 ops

/-- The handles of a state are consistent: both handles are nil or both are set,
to different channels that were handed out and are not closed; every closed
channel was handed out. -/
def LinkState.wf (s : LinkState) : Prop :=
  (∀ c ∈ s.closed, c < s.nextCh)
    ∧ ((s.link.stopCh = none ∧ s.link.quitCh = none)
      ∨ ∃ a b, s.link.stopCh = some a ∧ s.link.quitCh = some b ∧ a ≠ b
          ∧ a < s.nextCh ∧ b < s.nextCh ∧ a ∉ s.closed ∧ b ∉ s.closed)

/-- A link built for the rule of the translator test, and its initial state. -/
def linkUnit : syncTunnelLink := newTunnelLink ruleUnit (some [1, 2]) optsZero "x"

/-- The state of `linkUnit` after one `start`. -/
def stateStarted : LinkState :=
  { link := { linkUnit with stopCh := some 0, quitCh := some 1 }
    nextCh := 2
    closed := []
    launches := [some 0]
    repairs := [some 1] }

end Argotunnel

namespace Controller

open K8s

/-- The constant `annotationIngressCompressionQuality`. -/
def annotationIngressCompressionQuality : String := "argo.cloudflare.com/compression-quality"

/-- The constant `annotationIngressHAConnections`. -/
def annotationIngressHAConnections : String := "argo.cloudflare.com/ha-connections"

/-- The constant `annotationIngressHeartbeatCount`. -/
def annotationIngressHeartbeatCount : String := "argo.cloudflare.com/heartbeat-count"

/-- The constant `annotationIngressHeartbeatInterval`. -/
def annotationIngressHeartbeatInterval : String := "argo.cloudflare.com/heartbeat-interval"

/-- The constant `annotationIngressLoadBalancer`. -/
def annotationIngressLoadBalancer : String := "argo.cloudflare.com/lb-pool"

/-- The constant `annotationIngressNoChunkedEncoding`. -/
def annotationIngressNoChunkedEncoding : String := "argo.cloudflare.com/no-chunked-encoding"

/-- The constant `annotationIngressRetries`. -/
def annotationIngressRetries : String := "argo.cloudflare.com/retries"

/-- Modelled from the spec: the package `internal/tunnel` is not among the sources;
a `tunnel.Option` is given by the constructor function that built it and the value
it was given (durations in nanoseconds). -/
inductive TunnelOption where
  | CompressionQuality (val : Nat)
  | HaConnections (val : Int)
  | HeartbeatCount (val : Nat)
  | HeartbeatInterval (val : Int)
  | LbPool (val : String)
  | DisableChunkedEncoding (val : Bool)
  | Retries (val : Nat)
  deriving DecidableEq, Repr

/-- The interface `metav1.Object`, restricted to what `GetAnnotations` returns: the
annotation map, as an association list read by its first binding of a key. -/
structure Object where
  Annotations : List (String × String)
  deriving DecidableEq, Repr

/-- The two-valued map index `obj.GetAnnotations()[key]`. -/
def Object.annotation (obj : Object) (key : String) : Option String :=
  obj.Annotations.lookup key

/-- The two-valued map index `val, ok := obj.GetAnnotations()[key]` as the pair Go
assigns: the empty string and false for an absent key. -/
def Object.annotationOk (obj : Object) (key : String) : String × Bool :=
  match obj.annotation key with
  | some val => (val, true)
  | none => ("", false)

/-- The errors `strconv.ErrSyntax` and `strconv.ErrRange` of a `strconv.NumError`. -/
inductive NumError where
  | ErrSyntax
  | ErrRange
  deriving DecidableEq, Repr

/-- The modulus of `uint64` arithmetic, 2^64. -/
def uint64Mod : Nat := 18446744073709551616

/-- The digit value the `switch` of `strconv.ParseUint` gives a byte: `'0'..'9'` are
48..57, `'a'..'z'` are 97..122, `'A'..'Z'` are 65..90; any other byte (every byte
of a character outside ASCII among them) has none. -/
def digitVal (c : Char) : Option Nat :=
  if 48 ≤ c.toNat ∧ c.toNat ≤ 57 then some (c.toNat - 48)
  else if 97 ≤ c.toNat ∧ c.toNat ≤ 122 then some (c.toNat - 97 + 10)
  else if 65 ≤ c.toNat ∧ c.toNat ≤ 90 then some (c.toNat - 65 + 10)
  else none

/-- The loop of `strconv.ParseUint` over the bytes of the string, in `uint64`
arithmetic; the result is the returned value and error (`none` is nil). -/
def parseUintLoop (base cutoff maxVal : Nat) : List Char → Nat → Nat × Option NumError
  | [], n => (n, none)
  | c :: cs, n =>
    match digitVal c with
    | none => (0, some .ErrSyntax)
    | some d =>
      if d ≥ base then (0, some .ErrSyntax)
      else if n ≥ cutoff then (maxVal, some .ErrRange)
      else
        let n0 := (n * base) % uint64Mod
        let n1 := (n0 + d) % uint64Mod
        if n1 < n0 ∨ n1 > maxVal then (maxVal, some .ErrRange)
        else parseUintLoop base cutoff maxVal cs n1

/-- The library function `strconv.ParseUint(s, base, bitSize)` for a base from 2 to
36 and a bit size from 1 to 64: no sign, no underscores, no base prefix. -/
def ParseUint (s : String) (base bitSize : Nat) : Nat × Option NumError :=
  if len s = 0 then (0, some .ErrSyntax)
  else
    let cutoff := (uint64Mod - 1) / base + 1
    let maxVal := ((2 ^ bitSize) % uint64Mod + (uint64Mod - 1)) % uint64Mod
    parseUintLoop base cutoff maxVal s.data 0

/-- The second half of `strconv.ParseInt`, after the sign is picked off and the rest
has gone through `ParseUint` with result `r`: a syntax error is passed on, then the
range of the signed type is checked. -/
def parseIntRange (neg : Bool) (bitSize : Nat) (r : Nat × Option NumError) :
    Int × Option NumError :=
  match r with
  | (_, some .ErrSyntax) => (0, some .ErrSyntax)
  | (un, _) =>
    let cutoff : Nat := 2 ^ (bitSize - 1)
    if !neg && decide (un ≥ cutoff) then ((cutoff : Int) - 1, some .ErrRange)
    else if neg && decide (un > cutoff) then (-(cutoff : Int), some .ErrRange)
    else (if neg then -(un : Int) else (un : Int), none)

/-- The library function `strconv.ParseInt(s, base, bitSize)` for a base from 2 to 36
and a bit size from 1 to 64: a leading `+` or `-` is picked off, the rest goes
through `ParseUint`, then the range of the signed type is checked. -/
def ParseInt (s : String) (base bitSize : Nat) : Int × Option NumError :=
  if len s = 0 then (0, some .ErrSyntax)
  else
    match s.data with
    | c :: cs =>
      if c = '+' then parseIntRange false bitSize (ParseUint (String.mk cs) base bitSize)
      else if c = '-' then parseIntRange true bitSize (ParseUint (String.mk cs) base bitSize)
      else parseIntRange false bitSize (ParseUint (String.mk (c :: cs)) base bitSize)
    | [] => parseIntRange false bitSize (ParseUint (String.mk []) base bitSize)

/-- The function `parseMetaBool`, returning `(val, ok)`. -/
def parseMetaBool (obj : Object) (key : String) : Bool × Bool :=
  match obj.annotation key with
  | some s =>
    if s = "true" then (true, true)
    else if s = "false" then (false, true)
    else (false, false)
  | none => (false, false)

/-- The function `parseMetaDuration`, returning `(val, ok)`; the library function
`time.ParseDuration` is a parameter, `none` standing for an error. -/
def parseMetaDuration (parseDuration : String → Option Int) (obj : Object) (key : String) :
    Int × Bool :=
  match obj.annotation key with
  | some s =>
    match parseDuration s with
    | some d => (d, true)
    | none => (0, false)
  | none => (0, false)

/-- The function `parseMetaInt`, returning `(val, ok)`; the conversion to `int` of a
value in the 32-bit range changes nothing. -/
def parseMetaInt (obj : Object) (key : String) : Int × Bool :=
  match obj.annotation key with
  | some s =>
    match ParseInt s 10 32 with
    | (v, none) => (v, true)
    | (_, some _) => (0, false)
  | none => (0, false)

/-- The function `parseMetaUint`, returning `(val, ok)`; the conversion to `uint` of
a value in the 32-bit range changes nothing. -/
def parseMetaUint (obj : Object) (key : String) : Nat × Bool :=
  match obj.annotation key with
  | some s =>
    match ParseUint s 10 32 with
    | (v, none) => (v, true)
    | (_, some _) => (0, false)
  | none => (0, false)

/-- The function `parseMetaUint64`, returning `(val, ok)`. -/
def parseMetaUint64 (obj : Object) (key : String) : Nat × Bool :=
  match obj.annotation key with
  | some s =>
    match ParseUint s 10 64 with
    | (v, none) => (v, true)
    | (_, some _) => (0, false)
  | none => (0, false)

/-- Go's `append(opts, opt)` on a slice of options that may be nil. -/
def appendOption (opts : Option (List TunnelOption)) (opt : TunnelOption) :
    Option (List TunnelOption) :=
  some (opts.getD [] ++ [opt])

/-- The outcome of `parseIngressTunnelOptions`: a nil-pointer panic, or the returned
slice of options. -/
inductive OptionsResult where
  | panicked
  | returned (opts : Option (List TunnelOption))
  deriving DecidableEq, Repr

/-- The statement `if val, ok := parse(...); ok { opts = append(opts, mk(val)) }`,
given the pair `(val, ok)` the parser returned. -/
def appendIfOk {α : Type} (opts : Option (List TunnelOption)) (mk : α → TunnelOption)
    (parsed : α × Bool) : Option (List TunnelOption) :=
  if parsed.2 then appendOption opts (mk parsed.1) else opts

/-- The function `parseIngressTunnelOptions`. `meta.Accessor` accepts every
`*v1beta1.Ingress` without error; reading the annotations of a nil pointer panics. -/
def parseIngressTunnelOptions (parseDuration : String → Option Int) (ing : Option Ingress) :
    OptionsResult :=
  match ing with
  | none => .panicked
  | some ing =>
    let ingMeta : Object := { Annotations := ing.Annotations }
    let opts : Option (List TunnelOption) := none
    let opts := appendIfOk opts .CompressionQuality
      (parseMetaUint64 ingMeta annotationIngressCompressionQuality)
    let opts := appendIfOk opts .HaConnections
      (parseMetaInt ingMeta annotationIngressHAConnections)
    let opts := appendIfOk opts .HeartbeatCount
      (parseMetaUint64 ingMeta annotationIngressHeartbeatCount)
    let opts := appendIfOk opts .HeartbeatInterval
      (parseMetaDuration parseDuration ingMeta annotationIngressHeartbeatInterval)
    let opts := appendIfOk opts .LbPool
      (ingMeta.annotationOk annotationIngressLoadBalancer)
    let opts := appendIfOk opts .DisableChunkedEncoding
      (parseMetaBool ingMeta annotationIngressNoChunkedEncoding)
    let opts := appendIfOk opts .Retries
      (parseMetaUint ingMeta annotationIngressRetries)
    .returned opts

/-- Whether a character is one of the decimal digits `0` to `9`. -/
def isDecDigit (c : Char) : Bool :=
  decide (48 ≤ c.toNat ∧ c.toNat ≤ 57)

/-- The number a sequence of decimal digits denotes, continuing from `n`. -/
def digitsValue (n : Nat) (cs : List Char) : Nat :=
  cs.foldl (fun n c => n * 10 + (c.toNat - 48)) n

/-- The value of an unsigned base-10 integer literal: one or more decimal digits
and nothing else; `none` for any other string. -/
def unsignedLiteral (cs : List Char) : Option Nat :=
  if cs ≠ [] ∧ cs.all isDecDigit = true then some (digitsValue 0 cs) else none

/-- The value of a signed base-10 integer literal: an optional `+` or `-`, then one
or more decimal digits and nothing else; `none` for any other string. -/
def signedLiteral (cs : List Char) : Option Int :=
  match cs with
  | c :: ds =>
    if c = '+' then (unsignedLiteral ds).map (fun n => (n : Int))
    else if c = '-' then (unsignedLiteral ds).map (fun n => -(n : Int))
    else (unsignedLiteral (c :: ds)).map (fun n => (n : Int))
  | [] => none

/-- The options the annotation parser is specified to yield: the list, in the order
of the source, of one optional option per annotation, with the absent ones dropped.
An annotation gives its option when the key is present and its value parses for its
kind: an unsigned literal up to 2^64-1, a signed literal from -2^31 to 2^31-1, a
duration, any string, `true` or `false`, an unsigned literal up to 2^32-1. -/
def specTunnelOptions (parseDuration : String → Option Int) (obj : Object) :
    List TunnelOption :=
  List.reduceOption
    [ ((obj.annotation annotationIngressCompressionQuality).bind
          (fun s => unsignedLiteral s.data)).bind
        (fun v => if v ≤ 18446744073709551615 then some (.CompressionQuality v) else none),
      ((obj.annotation annotationIngressHAConnections).bind
          (fun s => signedLiteral s.data)).bind
        (fun v => if -2147483648 ≤ v ∧ v ≤ 2147483647 then some (.HaConnections v) else none),
      ((obj.annotation annotationIngressHeartbeatCount).bind
          (fun s => unsignedLiteral s.data)).bind
        (fun v => if v ≤ 18446744073709551615 then some (.HeartbeatCount v) else none),
      ((obj.annotation annotationIngressHeartbeatInterval).bind parseDuration).map
        .HeartbeatInterval,
      (obj.annotation annotationIngressLoadBalancer).map .LbPool,
      (obj.annotation annotationIngressNoChunkedEncoding).bind
        (fun s =>
          if s = "true" then some (.DisableChunkedEncoding true)
          else if s = "false" then some (.DisableChunkedEncoding false)
          else none),
      ((obj.annotation annotationIngressRetries).bind
          (fun s => unsignedLiteral s.data)).bind
        (fun v => if v ≤ 4294967295 then some (.Retries v) else none) ]

/-- The seven annotation keys the parser reads. -/
def tunnelAnnotations : List String :=
  [annotationIngressCompressionQuality, annotationIngressHAConnections,
   annotationIngressHeartbeatCount, annotationIngressHeartbeatInterval,
   annotationIngressLoadBalancer, annotationIngressNoChunkedEncoding,
   annotationIngressRetries]

/-- An Ingress with the given annotations and nothing else. -/
def ingAnnotated (annotations : List (String × String)) : Ingress :=
  { Name := "unit", Namespace := "unit", Annotations := annotations,
    Spec := { TLS := [], Rules := [] } }

/-- An object with one annotation. -/
def objWith (key value : String) : Object := { Annotations := [(key, value)] }

end Controller

/-! ## Theorems -/

namespace K8s

/-! ### The audit helpers -/

theorem subsetsLoop_iff (subsets : List EndpointSubset) :
    subsetsLoop subsets = true ↔ ∃ subset ∈ subsets, subset.Addresses ≠ [] := by
  induction subsets with
  | nil => simp [subsetsLoop]
  | cons x xs ih =>
    unfold subsetsLoop
    by_cases h : x.Addresses = []
    · simp [h, ih]
    · have : x.Addresses.length > 0 := List.length_pos.2 h
      simp [h, this]

/-- C7: `EndpointsHaveSubsets` is true if and only if the object is non-nil and one of
its subsets has at least one address; it is false for nil, for an object without
subsets and for an object all of whose subsets have no address. -/
theorem EndpointsHaveSubsets_iff (ep : Option Endpoints) :
    (EndpointsHaveSubsets ep = true
        ↔ ∃ e, ep = some e ∧ ∃ subset ∈ e.Subsets, 1 ≤ subset.Addresses.length)
      ∧ EndpointsHaveSubsets none = false
      ∧ EndpointsHaveSubsets (some { Subsets := [] }) = false
      ∧ (∀ e, ep = some e → (∀ subset ∈ e.Subsets, subset.Addresses = []) →
          EndpointsHaveSubsets ep = false) := by
  have key : ∀ e : Endpoints, EndpointsHaveSubsets (some e) = true
      ↔ ∃ subset ∈ e.Subsets, 1 ≤ subset.Addresses.length := by
    intro e
    show subsetsLoop e.Subsets = true ↔ _
    rw [subsetsLoop_iff]
    constructor
    · rintro ⟨x, hx, hne⟩
      exact ⟨x, hx, List.length_pos.2 hne⟩
    · rintro ⟨x, hx, hlen⟩
      exact ⟨x, hx, List.length_pos.1 hlen⟩
  refine ⟨?_, rfl, rfl, ?_⟩
  · cases ep with
    | none => simp [EndpointsHaveSubsets]
    | some e => simpa using key e
  · intro e he hall
    subst he
    cases hv : EndpointsHaveSubsets (some e) with
    | false => rfl
    | true =>
      obtain ⟨x, hx, hlen⟩ := (key e).1 hv
      rw [hall x hx] at hlen
      simp at hlen

/-- Witness of `EndpointsHaveSubsets_iff`: one subset without addresses. -/
theorem EndpointsHaveSubsets_iff_witness :
    EndpointsHaveSubsets (some { Subsets := [{ Addresses := [] }] }) = false :=
  (EndpointsHaveSubsets_iff (some { Subsets := [{ Addresses := [] }] })).2.2.2 _ rfl
    (by decide)

theorem portsLoop_eq (port : IntOrString) (ports : List ServicePort) :
    portsLoop port ports
      = match ports.find? (portMatches port) with
        | some servicePort => (servicePort.Port, true)
        | none => (0, false) := by
  induction ports with
  | nil => rfl
  | cons x xs ih =>
    unfold portsLoop
    rw [List.find?_cons]
    have e1 : intstrInt ≠ intstrString := by decide
    have e2 : intstrString ≠ intstrInt := by decide
    by_cases h1 : port.Type_ = intstrInt
    · by_cases h3 : x.Port = port.IntVal
      · simp [portMatches, h1, h3]
      · simp [portMatches, h1, e1, h3, ih]
    · by_cases h2 : port.Type_ = intstrString
      · by_cases h3 : x.Name = port.StrVal
        · simp [portMatches, h2, e2, h3]
        · simp [portMatches, h2, e2, h3, ih]
      · simp [portMatches, h1, h2, ih]

/-- C6: `GetServicePort` returns `exists = true` if and only if the service is non-nil
and declares a port matching the reference (by number for a reference of integer
type, by name for one of string type); the value is then the number of the first
matching declared port, which for an integer reference is the reference itself;
and when no port exists the value is 0. -/
theorem GetServicePort_spec (svc : Option Service) (port : IntOrString) :
    ((GetServicePort svc port).2 = true
        ↔ ∃ s, svc = some s ∧ ∃ servicePort ∈ s.Spec.Ports,
            (port.Type_ = intstrInt ∧ servicePort.Port = port.IntVal)
              ∨ (port.Type_ = intstrString ∧ servicePort.Name = port.StrVal))
      ∧ (∀ s pre servicePort post, svc = some s →
          s.Spec.Ports = pre ++ servicePort :: post →
          portMatches port servicePort = true →
          (∀ earlier ∈ pre, portMatches port earlier = false) →
          GetServicePort svc port = (servicePort.Port, true))
      ∧ ((GetServicePort svc port).2 = true → port.Type_ = intstrInt →
          (GetServicePort svc port).1 = port.IntVal)
      ∧ ((GetServicePort svc port).2 = false → (GetServicePort svc port).1 = 0) := by
  cases svc with
  | none => simp [GetServicePort]
  | some s =>
    have hval : GetServicePort (some s) port
        = match s.Spec.Ports.find? (portMatches port) with
          | some servicePort => (servicePort.Port, true)
          | none => (0, false) := portsLoop_eq port s.Spec.Ports
    refine ⟨?_, ?_, ?_, ?_⟩
    · rw [hval]
      cases hf : s.Spec.Ports.find? (portMatches port) with
      | none =>
        rw [List.find?_eq_none] at hf
        simp only [Bool.false_eq_true, Option.some.injEq, exists_eq_left', false_iff,
          not_exists, not_and]
        intro x hx hm
        apply hf x hx
        simpa [portMatches] using hm
      | some x =>
        have hm := List.find?_some hf
        have hx := List.mem_of_find?_eq_some hf
        simp only [Option.some.injEq, exists_eq_left', true_iff]
        exact ⟨x, hx, by simpa [portMatches] using hm⟩
    · intro s2 pre servicePort post hs hports hm hpre
      cases hs
      rw [hval, hports]
      have : (pre ++ servicePort :: post).find? (portMatches port) = some servicePort := by
        rw [List.find?_append]
        have hnone : pre.find? (portMatches port) = none := by
          rw [List.find?_eq_none]
          intro x hx
          simp [hpre x hx]
        rw [hnone, List.find?_cons, hm]
        rfl
      rw [this]
    · intro hex hint
      rw [hval] at hex ⊢
      cases hf : s.Spec.Ports.find? (portMatches port) with
      | none => rw [hf] at hex; simp at hex
      | some x =>
        have hm := List.find?_some hf
        simp only [portMatches, hint, decide_True, Bool.true_and, Bool.or_eq_true,
          decide_eq_true_eq, Bool.and_eq_true] at hm
        rcases hm with hm | hm
        · exact hm
        · exact absurd hm.1 (by decide)
    · intro hno
      rw [hval] at hno ⊢
      cases hf : s.Spec.Ports.find? (portMatches port) with
      | none => rfl
      | some x => rw [hf] at hno; simp at hno

/-- Witness of `GetServicePort_spec`: the port named `unit-b` of the test service. -/
theorem GetServicePort_spec_witness :
    GetServicePort (some svcUnit) (FromString "unit-b") = (9090, true) :=
  (GetServicePort_spec (some svcUnit) (FromString "unit-b")).2.1 svcUnit
    [⟨"unit-a", 8080⟩] ⟨"unit-b", 9090⟩ [] rfl (by decide) (by decide) (by decide)

end K8s

namespace Argotunnel

open K8s

/-! ### Helper lemmas -/

theorem len_pos_iff (s : String) : len s > 0 ↔ s ≠ "" := by
  rcases s with ⟨l⟩
  cases l with
  | nil => simp [len, String.utf8ByteSize, String.utf8ByteSize.go]
  | cons c cs =>
    have h : 0 < c.utf8Size := Char.utf8Size_pos c
    have h2 : (⟨c :: cs⟩ : String) ≠ "" := by
      intro h3
      have := congrArg String.data h3
      simp at this
    simp only [len, String.utf8ByteSize, String.utf8ByteSize.go, gt_iff_lt, ne_eq, h2,
      not_false_eq_true, iff_true]
    omega

theorem getD_goAppend (idx : Option (List String)) (k : String) :
    (goAppend idx k).getD [] = idx.getD [] ++ [k] := rfl

/-- The inner loop over the hosts of one TLS entry. -/
theorem hosts_foldl (ns host : String) (tls : IngressTLS) (hosts : List String)
    (m : String → Option resource) :
    hosts.foldl
        (fun m h =>
          if len tls.SecretName > 0 then
            hostSecretSet m h { name := tls.SecretName, namespace_ := ns }
          else m)
        m host
      = if tls.SecretName ≠ "" ∧ host ∈ hosts then
          some { name := tls.SecretName, namespace_ := ns }
        else m host := by
  induction hosts generalizing m with
  | nil => simp
  | cons h hs ih =>
    rw [List.foldl_cons, ih]
    by_cases hn : tls.SecretName = ""
    · have : ¬ len tls.SecretName > 0 := by rw [len_pos_iff]; simpa using hn
      simp only [if_neg this]
      simp [hn]
    · have hl : len tls.SecretName > 0 := (len_pos_iff _).2 hn
      by_cases hm : host ∈ hs
      · simp [hn, hm]
      · by_cases he : host = h
        · simp [hn, hm, he, hl, hostSecretSet]
        · simp [hn, hm, he, hl, hostSecretSet]

theorem lastNamedTLS_cons (t : IngressTLS) (ts : List IngressTLS) (host : String) :
    lastNamedTLS (t :: ts) host
      = match lastNamedTLS ts host with
        | some u => some u
        | none => if namedFor host t then some t else none := by
  unfold lastNamedTLS
  rw [List.filter_cons]
  by_cases hp : namedFor host t = true
  · simp only [hp, if_true]
    cases hf : List.filter (namedFor host) ts with
    | nil => simp
    | cons a l =>
      rw [List.getLast?_cons_cons, List.getLast?_eq_getLast (a :: l) (by simp)]
  · have hq : namedFor host t = false := by simpa using hp
    rw [hq, if_neg (by simp), if_neg (by simp)]
    cases hf : (List.filter (namedFor host) ts).getLast? <;> rfl

/-- The first loop, started from any map. -/
theorem tls_foldl (ns host : String) (tlss : List IngressTLS) (m : String → Option resource) :
    tlss.foldl
        (fun m tls =>
          tls.Hosts.foldl
            (fun m h =>
              if len tls.SecretName > 0 then
                hostSecretSet m h { name := tls.SecretName, namespace_ := ns }
              else m)
            m)
        m host
      = match lastNamedTLS tlss host with
        | some t => some { name := t.SecretName, namespace_ := ns }
        | none => m host := by
  induction tlss generalizing m with
  | nil => simp [lastNamedTLS]
  | cons t ts ih =>
    rw [List.foldl_cons, ih, lastNamedTLS_cons]
    cases hl : lastNamedTLS ts host with
    | some u => simp
    | none =>
      simp only [hosts_foldl, namedFor]
      by_cases h1 : t.SecretName = "" <;> by_cases h2 : host ∈ t.Hosts <;> simp [h1, h2]

/-- The map built by the first loop holds, for each host, the secret of the last
TLS entry that has a secret name and lists the host. -/
theorem ingressHostSecret_eq (ing : Ingress) (host : String) :
    ingressHostSecret ing host
      = (lastNamedTLS ing.Spec.TLS host).map
          (fun t => { name := t.SecretName, namespace_ := ing.Namespace }) := by
  unfold ingressHostSecret
  rw [tls_foldl]
  cases lastNamedTLS ing.Spec.TLS host <;> rfl

theorem eligible_iff (rule : IngressRule) :
    (rule.HTTP.isSome && decide (len rule.Host > 0)) = eligible rule := by
  unfold eligible
  by_cases h : rule.Host = ""
  · have : ¬ len rule.Host > 0 := by rw [len_pos_iff]; simpa using h
    rw [decide_eq_false this]
    simp [h]
  · have : len rule.Host > 0 := (len_pos_iff _).2 h
    rw [decide_eq_true this]
    simp [h]

/-- One step of the rule loop appends the specified keys of the rule. -/
theorem secretRuleStep_getD (ing : Ingress) (secret : Option resource)
    (idx : Option (List String)) (rule : IngressRule) :
    (secretRuleStep (ingressHostSecret ing) secret idx rule).getD []
      = idx.getD [] ++ specSecretRuleKeys ing secret rule := by
  unfold secretRuleStep specSecretRuleKeys
  rw [eligible_iff, ingressHostSecret_eq]
  cases he : eligible rule with
  | false => simp
  | true =>
    cases hl : lastNamedTLS ing.Spec.TLS rule.Host with
    | some t => simp [getD_goAppend]
    | none => cases secret <;> simp [getD_goAppend]

/-- The rule loop, started from any slice. -/
theorem secret_foldl (ing : Ingress) (secret : Option resource) (rules : List IngressRule)
    (idx : Option (List String)) :
    (rules.foldl (secretRuleStep (ingressHostSecret ing) secret) idx).getD []
      = idx.getD [] ++ rules.flatMap (specSecretRuleKeys ing secret) := by
  induction rules generalizing idx with
  | nil => simp
  | cons r rs ih => rw [List.foldl_cons, ih, secretRuleStep_getD]; simp

/-- The slice stays nil as long as nothing is appended. -/
theorem secret_foldl_none (ing : Ingress) (secret : Option resource)
    (rules : List IngressRule) (h : rules.flatMap (specSecretRuleKeys ing secret) = []) :
    rules.foldl (secretRuleStep (ingressHostSecret ing) secret) none = none := by
  induction rules with
  | nil => rfl
  | cons r rs ih =>
    rw [List.flatMap_cons, List.append_eq_nil] at h
    have hstep : secretRuleStep (ingressHostSecret ing) secret none r = none := by
      have h1 := h.1
      unfold specSecretRuleKeys at h1
      unfold secretRuleStep
      rw [eligible_iff, ingressHostSecret_eq]
      cases he : eligible r with
      | false => simp
      | true =>
        rw [he] at h1
        cases hl : lastNamedTLS ing.Spec.TLS r.Host with
        | some t => rw [hl] at h1; simp at h1
        | none =>
          rw [hl] at h1
          cases secret with
          | none => simp
          | some s => simp at h1
    rw [List.foldl_cons, hstep]
    exact ih h.2

theorem secretKeysOf_eq (secret : Option resource) (ing : Ingress) (rules : List IngressRule) :
    secretKeysOf secret ing rules = rules.flatMap (specSecretRuleKeys ing secret) := by
  unfold secretKeysOf ingressSecretIndexFunc IndexResult.keys
  simp only
  rw [secret_foldl]
  rfl

theorem secretIndex_keys (secret : Option resource) (ing : Ingress) :
    (ingressSecretIndexFunc secret (.ingress (some ing))).keys
      = ing.Spec.Rules.flatMap (specSecretRuleKeys ing secret) :=
  secretKeysOf_eq secret ing ing.Spec.Rules

/-- The keys of a rule list split at any rule. -/
theorem secretIndex_split (secret : Option resource) (ing : Ingress)
    (pre post : List IngressRule) (rule : IngressRule)
    (hrules : ing.Spec.Rules = pre ++ rule :: post) :
    (ingressSecretIndexFunc secret (.ingress (some ing))).keys
      = secretKeysOf secret ing pre ++ secretKeysOf secret ing [rule]
          ++ secretKeysOf secret ing post := by
  rw [secretIndex_keys, hrules]
  simp [secretKeysOf_eq]

theorem lastNamedTLS_some_iff (tlss : List IngressTLS) (host : String) :
    (∃ t, lastNamedTLS tlss host = some t)
      ↔ ∃ tls ∈ tlss, tls.SecretName ≠ "" ∧ host ∈ tls.Hosts := by
  unfold lastNamedTLS
  constructor
  · rintro ⟨t, ht⟩
    have hm : t ∈ tlss.filter (namedFor host) := List.mem_of_getLast?_eq_some ht
    rw [List.mem_filter] at hm
    refine ⟨t, hm.1, ?_⟩
    simpa [namedFor] using hm.2
  · rintro ⟨tls, hmem, hn, hh⟩
    have hm : tls ∈ tlss.filter (namedFor host) := by
      rw [List.mem_filter]
      exact ⟨hmem, by simp [namedFor, hn, hh]⟩
    have hne : tlss.filter (namedFor host) ≠ [] := List.ne_nil_of_mem hm
    exact ⟨_, List.getLast?_eq_getLast _ hne⟩

theorem lastNamedTLS_mem (tlss : List IngressTLS) (host : String) (t : IngressTLS)
    (h : lastNamedTLS tlss host = some t) :
    t ∈ tlss ∧ t.SecretName ≠ "" ∧ host ∈ t.Hosts := by
  have hm : t ∈ tlss.filter (namedFor host) := List.mem_of_getLast?_eq_some h
  rw [List.mem_filter] at hm
  exact ⟨hm.1, by simpa [namedFor] using hm.2⟩

theorem eligible_of (rule : IngressRule) (hhttp : rule.HTTP ≠ none) (hhost : rule.Host ≠ "") :
    eligible rule = true := by
  unfold eligible
  cases h : rule.HTTP with
  | none => exact absurd h hhttp
  | some v => simp [hhost]

/-- The result for an Ingress with one eligible rule whose host a named TLS entry lists. -/
theorem secretIndex_single_tls (secret : Option resource) (ing : Ingress) (rule : IngressRule)
    (t : IngressTLS) (hel : eligible rule = true)
    (ht : lastNamedTLS ing.Spec.TLS rule.Host = some t) :
    ingressSecretIndexFunc secret (.ingress (some (withRules ing [rule])))
      = .returned (some [itemKeyFunc ing.Namespace t.SecretName]) none := by
  have hm : ingressHostSecret (withRules ing [rule]) rule.Host
      = some { name := t.SecretName, namespace_ := ing.Namespace } := by
    rw [ingressHostSecret_eq]
    show (lastNamedTLS ing.Spec.TLS rule.Host).map _ = _
    rw [ht]; rfl
  unfold ingressSecretIndexFunc
  simp only [withRules, List.foldl_cons, List.foldl_nil]
  unfold secretRuleStep
  rw [eligible_iff, hel]
  simp only [withRules] at hm
  simp [hm, goAppend]

/-- The result for an Ingress with one eligible rule whose host no named TLS entry lists. -/
theorem secretIndex_single_default (secret : Option resource) (ing : Ingress)
    (rule : IngressRule) (hel : eligible rule = true)
    (ht : lastNamedTLS ing.Spec.TLS rule.Host = none) :
    ingressSecretIndexFunc secret (.ingress (some (withRules ing [rule])))
      = .returned (secret.map (fun s => [itemKeyFunc s.namespace_ s.name])) none := by
  have hm : ingressHostSecret (withRules ing [rule]) rule.Host = none := by
    rw [ingressHostSecret_eq]
    show (lastNamedTLS ing.Spec.TLS rule.Host).map _ = _
    rw [ht]; rfl
  unfold ingressSecretIndexFunc
  simp only [withRules, List.foldl_cons, List.foldl_nil]
  unfold secretRuleStep
  rw [eligible_iff, hel]
  simp only [withRules] at hm
  cases secret <;> simp [hm, goAppend]

/-! ### The ingress-to-secret index -/

/-- C1 (as stated, refuted): for `ingUnnamedTLS` and the default `secDefault`, the only
TLS entry lists the host of the only rule, yet the index yields the default's key
`unit/sec-default` and not the key `unit/` of that entry's (empty) secret name. -/
theorem secretIndex_unnamed_tls_counterexample :
    ingressSecretIndexFunc (some secDefault) (.ingress (some ingUnnamedTLS))
        = .returned (some [itemKeyFunc secDefault.namespace_ secDefault.name]) none
      ∧ ¬ (∀ rule ∈ ingUnnamedTLS.Spec.Rules, rule.HTTP ≠ none → rule.Host ≠ "" →
            ∀ tls ∈ ingUnnamedTLS.Spec.TLS, rule.Host ∈ tls.Hosts →
              secretKeysOf (some secDefault) ingUnnamedTLS [rule]
                = [itemKeyFunc ingUnnamedTLS.Namespace tls.SecretName]) := by
  refine ⟨by decide, ?_⟩
  intro h
  have h1 := h ⟨"a.unit.com", some ⟨[]⟩⟩ (by decide) (by decide) (by decide)
    ⟨["a.unit.com"], ""⟩ (by decide) (by decide)
  revert h1
  decide

/-- C1 (amended): for every Ingress, every default secret (including none) and every
rule with `HTTP != nil` and a non-empty host: if some TLS entry with a non-empty
`SecretName` lists the rule's host, then the key emitted for that rule is
`itemKeyFunc(ingress namespace, SecretName)` of the last such TLS entry, whatever
the default secret is: it stands at the rule's position in the returned list, and
the index of the Ingress with that rule alone returns exactly this key. -/
theorem secretIndex_tls_key (secret : Option resource) (ing : Ingress)
    (pre post : List IngressRule) (rule : IngressRule)
    (hrules : ing.Spec.Rules = pre ++ rule :: post)
    (hhttp : rule.HTTP ≠ none) (hhost : rule.Host ≠ "")
    (hex : ∃ tls ∈ ing.Spec.TLS, tls.SecretName ≠ "" ∧ rule.Host ∈ tls.Hosts) :
    ∃ t, lastNamedTLS ing.Spec.TLS rule.Host = some t
      ∧ t ∈ ing.Spec.TLS ∧ t.SecretName ≠ "" ∧ rule.Host ∈ t.Hosts
      ∧ (ingressSecretIndexFunc secret (.ingress (some ing))).keys
          = secretKeysOf secret ing pre
            ++ itemKeyFunc ing.Namespace t.SecretName :: secretKeysOf secret ing post
      ∧ ∀ other : Option resource,
          ingressSecretIndexFunc other (.ingress (some (withRules ing [rule])))
            = .returned (some [itemKeyFunc ing.Namespace t.SecretName]) none := by
  obtain ⟨t, ht⟩ := (lastNamedTLS_some_iff ing.Spec.TLS rule.Host).2 hex
  have hel := eligible_of rule hhttp hhost
  obtain ⟨hm, hn, hh⟩ := lastNamedTLS_mem _ _ _ ht
  refine ⟨t, ht, hm, hn, hh, ?_, fun other => secretIndex_single_tls other ing rule t hel ht⟩
  rw [secretIndex_split secret ing pre post rule hrules]
  have h1 : secretKeysOf secret ing [rule] = [itemKeyFunc ing.Namespace t.SecretName] := by
    unfold secretKeysOf
    rw [secretIndex_single_tls secret ing rule t hel ht]
    rfl
  rw [h1]
  simp

/-- Witness of `secretIndex_tls_key`: the rule for `c.unit.com` of the test Ingress. -/
theorem secretIndex_tls_key_witness :
    ∃ t, lastNamedTLS ingSecs.Spec.TLS "c.unit.com" = some t
      ∧ t ∈ ingSecs.Spec.TLS ∧ t.SecretName ≠ "" ∧ "c.unit.com" ∈ t.Hosts
      ∧ (ingressSecretIndexFunc (some secDefault) (.ingress (some ingSecs))).keys
          = secretKeysOf (some secDefault) ingSecs
              [⟨"a.unit.com", some ⟨[]⟩⟩, ⟨"b.unit.com", some ⟨[]⟩⟩]
            ++ itemKeyFunc ingSecs.Namespace t.SecretName
              :: secretKeysOf (some secDefault) ingSecs [⟨"d.unit.com", some ⟨[]⟩⟩]
      ∧ ∀ other : Option resource,
          ingressSecretIndexFunc other
              (.ingress (some (withRules ingSecs [⟨"c.unit.com", some ⟨[]⟩⟩])))
            = .returned (some [itemKeyFunc ingSecs.Namespace t.SecretName]) none :=
  secretIndex_tls_key (some secDefault) ingSecs
    [⟨"a.unit.com", some ⟨[]⟩⟩, ⟨"b.unit.com", some ⟨[]⟩⟩] [⟨"d.unit.com", some ⟨[]⟩⟩]
    ⟨"c.unit.com", some ⟨[]⟩⟩ (by decide) (by decide) (by decide)
    ⟨⟨["c.unit.com"], "sec-c"⟩, by decide, by decide, by decide⟩

/-- C2 (as stated, refuted): for `ingUnnamedTLS` and the default `secDefault` the index
emits the default's key for the rule although a TLS entry lists the rule's host. -/
theorem secretIndex_default_counterexample :
    ¬ (∀ rule ∈ ingUnnamedTLS.Spec.Rules, rule.HTTP ≠ none → rule.Host ≠ "" →
        (secretKeysOf (some secDefault) ingUnnamedTLS [rule]
            = [itemKeyFunc secDefault.namespace_ secDefault.name]
          ↔ (¬ ∃ tls ∈ ingUnnamedTLS.Spec.TLS, rule.Host ∈ tls.Hosts)
              ∧ (some secDefault) ≠ none)) := by
  intro h
  have h1 := h ⟨"a.unit.com", some ⟨[]⟩⟩ (by decide) (by decide) (by decide)
  have h2 := (h1.1 (by decide)).1
  exact h2 ⟨⟨["a.unit.com"], ""⟩, by decide, by decide⟩

/-- C2 (amended): for every Ingress and every rule with `HTTP != nil` and a non-empty
host, the rule contributes its own keys at its position; when no TLS entry with a
non-empty `SecretName` lists the rule's host, it contributes exactly the default's
key if a default is configured and nothing if none is (the slice stays nil); with a
default configured, the contribution is the default's key if and only if no TLS
entry with a non-empty `SecretName` lists the host or the key of the last such
entry is itself equal to the default's key; and with no default and no TLS entries
the function returns the nil slice. -/
theorem secretIndex_default_key (secret : Option resource) (ing : Ingress)
    (pre post : List IngressRule) (rule : IngressRule)
    (hrules : ing.Spec.Rules = pre ++ rule :: post)
    (hhttp : rule.HTTP ≠ none) (hhost : rule.Host ≠ "") :
    (ingressSecretIndexFunc secret (.ingress (some ing))).keys
        = secretKeysOf secret ing pre ++ secretKeysOf secret ing [rule]
            ++ secretKeysOf secret ing post
      ∧ ((¬ ∃ tls ∈ ing.Spec.TLS, tls.SecretName ≠ "" ∧ rule.Host ∈ tls.Hosts) →
          ingressSecretIndexFunc secret (.ingress (some (withRules ing [rule])))
            = .returned (secret.map (fun s => [itemKeyFunc s.namespace_ s.name])) none)
      ∧ (∀ s, secret = some s →
          (secretKeysOf secret ing [rule] = [itemKeyFunc s.namespace_ s.name]
            ↔ (¬ ∃ tls ∈ ing.Spec.TLS, tls.SecretName ≠ "" ∧ rule.Host ∈ tls.Hosts)
              ∨ ∃ t, lastNamedTLS ing.Spec.TLS rule.Host = some t
                  ∧ itemKeyFunc ing.Namespace t.SecretName
                      = itemKeyFunc s.namespace_ s.name))
      ∧ (secret = none → ing.Spec.TLS = [] →
          ingressSecretIndexFunc secret (.ingress (some ing)) = .returned none none) := by
  have hel := eligible_of rule hhttp hhost
  refine ⟨secretIndex_split secret ing pre post rule hrules, ?_, ?_, ?_⟩
  · intro hno
    rw [← lastNamedTLS_some_iff] at hno
    have ht : lastNamedTLS ing.Spec.TLS rule.Host = none := by
      cases h : lastNamedTLS ing.Spec.TLS rule.Host with
      | none => rfl
      | some t => exact absurd ⟨t, h⟩ hno
    exact secretIndex_single_default secret ing rule hel ht
  · intro s hs
    subst hs
    rw [← lastNamedTLS_some_iff]
    cases ht : lastNamedTLS ing.Spec.TLS rule.Host with
    | none =>
      have := secretIndex_single_default (some s) ing rule hel ht
      simp [secretKeysOf, this, IndexResult.keys]
    | some t =>
      have := secretIndex_single_tls (some s) ing rule t hel ht
      simp [secretKeysOf, this, IndexResult.keys]
  · intro hs htls
    subst hs
    have hnil : ing.Spec.Rules.flatMap (specSecretRuleKeys ing none) = [] := by
      rw [List.flatMap_eq_nil_iff]
      intro r _
      unfold specSecretRuleKeys
      simp [htls, lastNamedTLS]
    unfold ingressSecretIndexFunc
    simp only
    rw [secret_foldl_none ing none _ hnil]

/-- Witness of `secretIndex_default_key`: the rule for `b.unit.com` of the test Ingress. -/
theorem secretIndex_default_key_witness :
    (ingressSecretIndexFunc (some secDefault) (.ingress (some ingSecs))).keys
        = secretKeysOf (some secDefault) ingSecs [⟨"a.unit.com", some ⟨[]⟩⟩]
            ++ secretKeysOf (some secDefault) ingSecs [⟨"b.unit.com", some ⟨[]⟩⟩]
            ++ secretKeysOf (some secDefault) ingSecs
                [⟨"c.unit.com", some ⟨[]⟩⟩, ⟨"d.unit.com", some ⟨[]⟩⟩]
      ∧ secretKeysOf (some secDefault) ingSecs [⟨"b.unit.com", some ⟨[]⟩⟩]
          = ["unit/sec-default"] :=
  ⟨(secretIndex_default_key (some secDefault) ingSecs [⟨"a.unit.com", some ⟨[]⟩⟩]
      [⟨"c.unit.com", some ⟨[]⟩⟩, ⟨"d.unit.com", some ⟨[]⟩⟩] ⟨"b.unit.com", some ⟨[]⟩⟩
      (by decide) (by decide) (by decide)).1, by decide⟩

/-- C3: the key list of the ingress-to-secret index is the concatenation, over the
rules in their declared order, of the keys of each rule; a rule yields at most one
key, and none when `HTTP == nil` or the host is empty; nothing is deduplicated: two
rules yielding the same key put it in the list twice; and with a default secret
configured the length of the list is the number of rules with `HTTP != nil` and a
non-empty host. -/
theorem secretIndex_rule_order (secret : Option resource) (ing : Ingress) :
    (ingressSecretIndexFunc secret (.ingress (some ing))).keys
        = ing.Spec.Rules.flatMap (fun rule => secretKeysOf secret ing [rule])
      ∧ (∀ rule, (secretKeysOf secret ing [rule]).length ≤ 1)
      ∧ (∀ rule, rule.HTTP = none ∨ rule.Host = "" → secretKeysOf secret ing [rule] = [])
      ∧ (∀ pre mid post r1 r2 k, ing.Spec.Rules = pre ++ r1 :: (mid ++ r2 :: post) →
          secretKeysOf secret ing [r1] = [k] → secretKeysOf secret ing [r2] = [k] →
          (ingressSecretIndexFunc secret (.ingress (some ing))).keys
            = secretKeysOf secret ing pre
              ++ k :: (secretKeysOf secret ing mid ++ k :: secretKeysOf secret ing post))
      ∧ (secret ≠ none →
          (ingressSecretIndexFunc secret (.ingress (some ing))).keys.length
            = ing.Spec.Rules.countP
                (fun rule => rule.HTTP.isSome && decide (rule.Host ≠ ""))) := by
  have hone : ∀ rule, secretKeysOf secret ing [rule] = specSecretRuleKeys ing secret rule := by
    intro rule
    rw [secretKeysOf_eq]
    simp
  refine ⟨?_, ?_, ?_, ?_, ?_⟩
  · rw [secretIndex_keys]
    congr 1
    funext rule
    exact (hone rule).symm
  · intro rule
    rw [hone]
    unfold specSecretRuleKeys
    split
    · split
      · simp
      · split <;> simp
    · simp
  · intro rule h
    rw [hone]
    unfold specSecretRuleKeys eligible
    rcases h with h | h <;> simp [h]
  · intro pre mid post r1 r2 k hr h1 h2
    rw [hone] at h1 h2
    rw [secretIndex_keys, hr]
    simp [secretKeysOf_eq, h1, h2]
  · intro hs
    obtain ⟨s, rfl⟩ := Option.ne_none_iff_exists'.1 hs
    rw [secretIndex_keys]
    generalize ing.Spec.Rules = rules
    induction rules with
    | nil => simp
    | cons r rs ih =>
      rw [List.flatMap_cons, List.length_append, ih, List.countP_cons]
      have : (specSecretRuleKeys ing (some s) r).length
          = if (r.HTTP.isSome && decide (r.Host ≠ "")) = true then 1 else 0 := by
        unfold specSecretRuleKeys eligible
        split
        · split <;> simp
        · simp
      rw [this]
      omega

/-- Witness of `secretIndex_rule_order`: two rules for the same host yield the same
key twice. -/
theorem secretIndex_rule_order_witness :
    (ingressSecretIndexFunc none (.ingress (some ingTwice))).keys
      = secretKeysOf none ingTwice []
        ++ "unit/sec-a" :: (secretKeysOf none ingTwice [] ++ "unit/sec-a"
          :: secretKeysOf none ingTwice []) :=
  (secretIndex_rule_order none ingTwice).2.2.2.1 [] [] [] ⟨"a.unit.com", some ⟨[]⟩⟩
    ⟨"a.unit.com", some ⟨[]⟩⟩ "unit/sec-a" (by decide) (by decide) (by decide)

/-! ### The ingress-to-service index -/

/-- The path loop, started from any slice. -/
theorem service_path_foldl (ns : String) (paths : List HTTPIngressPath)
    (idx : Option (List String)) :
    paths.foldl (servicePathStep ns) idx
      = if (paths.filter (fun path => decide (path.Backend.ServiceName ≠ ""))).map
              (fun path => itemKeyFunc ns path.Backend.ServiceName) = [] then idx
        else some (idx.getD [] ++
          (paths.filter (fun path => decide (path.Backend.ServiceName ≠ ""))).map
              (fun path => itemKeyFunc ns path.Backend.ServiceName)) := by
  induction paths generalizing idx with
  | nil => simp
  | cons p ps ih =>
    rw [List.foldl_cons, ih]
    unfold servicePathStep
    by_cases hn : p.Backend.ServiceName = ""
    · have : ¬ len p.Backend.ServiceName > 0 := by rw [len_pos_iff]; simpa using hn
      rw [if_neg this]
      simp [hn]
    · have : len p.Backend.ServiceName > 0 := (len_pos_iff _).2 hn
      rw [if_pos this]
      have hf : (p :: ps).filter (fun path => decide (path.Backend.ServiceName ≠ ""))
          = p :: ps.filter (fun path => decide (path.Backend.ServiceName ≠ "")) := by
        simp [List.filter_cons, hn]
      rw [hf, List.map_cons]
      generalize List.map (fun path => itemKeyFunc ns path.Backend.ServiceName)
        (List.filter (fun path => decide (path.Backend.ServiceName ≠ "")) ps) = P
      cases P <;> simp [goAppend]

/-- One step of the rule loop of the service index. -/
theorem serviceRuleStep_eq (ns : String) (rule : IngressRule) (idx : Option (List String)) :
    serviceRuleStep ns idx rule
      = if (rule.HTTP.isSome && decide (rule.Host ≠ "")) = true then
          (if specServiceRuleKeys ns rule = [] then idx
           else some (idx.getD [] ++ specServiceRuleKeys ns rule))
        else idx := by
  unfold serviceRuleStep specServiceRuleKeys pathsOf
  cases hh : rule.HTTP with
  | none => simp
  | some http =>
    by_cases hn : rule.Host = ""
    · have : ¬ len rule.Host > 0 := by rw [len_pos_iff]; simpa using hn
      simp only [if_neg this]
      simp [hn]
    · have : len rule.Host > 0 := (len_pos_iff _).2 hn
      simp only [if_pos this, service_path_foldl]
      simp [hn]

/-- The rule loop of the service index, started from any slice. -/
theorem service_foldl (ns : String) (rules : List IngressRule) (idx : Option (List String)) :
    rules.foldl (serviceRuleStep ns) idx
      = if (rules.filter (fun rule => rule.HTTP.isSome && decide (rule.Host ≠ ""))).flatMap
              (specServiceRuleKeys ns) = [] then idx
        else some (idx.getD [] ++
          (rules.filter (fun rule => rule.HTTP.isSome && decide (rule.Host ≠ ""))).flatMap
              (specServiceRuleKeys ns)) := by
  induction rules generalizing idx with
  | nil => simp
  | cons r rs ih =>
    rw [List.foldl_cons, ih, serviceRuleStep_eq, List.filter_cons]
    by_cases he : (r.HTTP.isSome && decide (r.Host ≠ "")) = true
    · rw [if_pos he, if_pos he]
      by_cases hk : specServiceRuleKeys ns r = []
      · simp [hk]
      · simp only [hk, if_false, List.flatMap_cons, List.append_eq_nil, false_and,
          Option.getD_some, List.append_assoc]
        split <;> simp_all
    · rw [if_neg he, if_neg he]

/-- C4: for every Ingress the service index returns, with a nil error, exactly the
list obtained by walking the rules in order, keeping the rules with `HTTP != nil`
and a non-empty host, walking each kept rule's paths in order, dropping the paths
whose backend service name is empty and mapping each remaining path to
`itemKeyFunc(ingress namespace, backend service name)` (the nil slice when that
list is empty); so the key of every non-empty backend name of a kept rule is in the
result and no key comes from an empty name. -/
theorem serviceIndex_exact (ing : Ingress) :
    ingressServiceIndexFunc (.ingress (some ing))
        = .returned (if specServiceKeys ing = [] then none else some (specServiceKeys ing)) none
      ∧ (ingressServiceIndexFunc (.ingress (some ing))).keys
          = (ing.Spec.Rules.filter
                (fun rule => rule.HTTP.isSome && decide (rule.Host ≠ ""))).flatMap
              (fun rule =>
                ((pathsOf rule).filter (fun path => decide (path.Backend.ServiceName ≠ ""))).map
                  (fun path => itemKeyFunc ing.Namespace path.Backend.ServiceName))
      ∧ (∀ rule ∈ ing.Spec.Rules, ∀ http, rule.HTTP = some http → rule.Host ≠ "" →
          ∀ path ∈ http.Paths, path.Backend.ServiceName ≠ "" →
            itemKeyFunc ing.Namespace path.Backend.ServiceName
              ∈ (ingressServiceIndexFunc (.ingress (some ing))).keys)
      ∧ (∀ key ∈ (ingressServiceIndexFunc (.ingress (some ing))).keys,
          ∃ rule ∈ ing.Spec.Rules, ∃ http, rule.HTTP = some http ∧ rule.Host ≠ "" ∧
            ∃ path ∈ http.Paths, path.Backend.ServiceName ≠ "" ∧
              key = itemKeyFunc ing.Namespace path.Backend.ServiceName) := by
  have hres : ingressServiceIndexFunc (.ingress (some ing))
      = .returned (if specServiceKeys ing = [] then none else some (specServiceKeys ing))
          none := by
    unfold ingressServiceIndexFunc
    simp only
    rw [service_foldl]
    unfold specServiceKeys
    split <;> simp
  have hkeys : (ingressServiceIndexFunc (.ingress (some ing))).keys = specServiceKeys ing := by
    rw [hres]
    by_cases h : specServiceKeys ing = [] <;> simp [IndexResult.keys, h]
  refine ⟨hres, ?_, ?_, ?_⟩
  · rw [hkeys]; rfl
  · intro rule hr http hh hhost path hp hn
    rw [hkeys]
    unfold specServiceKeys
    rw [List.mem_flatMap]
    refine ⟨rule, ?_, ?_⟩
    · rw [List.mem_filter]
      exact ⟨hr, by simp [hh, hhost]⟩
    · unfold specServiceRuleKeys pathsOf
      rw [hh, List.mem_map]
      exact ⟨path, by rw [List.mem_filter]; exact ⟨hp, by simp [hn]⟩, rfl⟩
  · intro key hk
    rw [hkeys] at hk
    unfold specServiceKeys at hk
    rw [List.mem_flatMap] at hk
    obtain ⟨rule, hr, hk⟩ := hk
    rw [List.mem_filter] at hr
    unfold specServiceRuleKeys pathsOf at hk
    cases hh : rule.HTTP with
    | none => rw [hh] at hk; simp at hk
    | some http =>
      rw [hh, List.mem_map] at hk
      obtain ⟨path, hp, hkey⟩ := hk
      rw [List.mem_filter] at hp
      have hhost : rule.Host ≠ "" := by
        have := hr.2
        simp [hh] at this
        exact this
      exact ⟨rule, hr.1, http, hh, hhost, path, hp.1, by simpa using hp.2, hkey.symm⟩

/-- Witness of `serviceIndex_exact`: the key of `svc-c` is in the index of the test
Ingress. -/
theorem serviceIndex_exact_witness :
    itemKeyFunc ingSvcs.Namespace "svc-c"
      ∈ (ingressServiceIndexFunc (.ingress (some ingSvcs))).keys :=
  (serviceIndex_exact ingSvcs).2.2.1
    ⟨"a.unit.com", some ⟨[⟨"", ⟨"svc-a", FromString "http"⟩⟩,
      ⟨"", ⟨"", FromString "http"⟩⟩, ⟨"", ⟨"svc-c", FromString "http"⟩⟩]⟩⟩
    (by decide) _ rfl (by decide) ⟨"", ⟨"svc-c", FromString "http"⟩⟩ (by decide) (by decide)

/-! ### Errors of the index functions -/

/-- The errors of the index functions away from the nil pointer: a function returns
an error if and only if the dynamic type of the object is not `*v1beta1.Ingress`
(the nil object included); the message is then `index unexpected obj type: `
followed by the dynamic type name and the returned key list is the empty non-nil
slice; for every non-nil Ingress the error is nil. The nil pointer of Ingress type is
left out of the last part: there the functions do not return. -/
theorem index_error_iff (secret : Option resource) (obj : Obj) :
    ((∃ idx msg, ingressSecretIndexFunc secret obj = .returned idx (some msg))
        ↔ obj.isIngress = false)
      ∧ ((∃ idx msg, ingressServiceIndexFunc obj = .returned idx (some msg))
        ↔ obj.isIngress = false)
      ∧ (obj.isIngress = false →
          ingressSecretIndexFunc secret obj
              = .returned (some []) (some ("index unexpected obj type: " ++ obj.typeName))
            ∧ ingressServiceIndexFunc obj
              = .returned (some []) (some ("index unexpected obj type: " ++ obj.typeName)))
      ∧ (∀ ing, obj = .ingress (some ing) →
          (∃ idx, ingressSecretIndexFunc secret obj = .returned idx none)
            ∧ ∃ idx, ingressServiceIndexFunc obj = .returned idx none)
      ∧ ingressSecretIndexFunc secret .nil
          = .returned (some []) (some "index unexpected obj type: <nil>")
      ∧ ingressServiceIndexFunc .nil
          = .returned (some []) (some "index unexpected obj type: <nil>") := by
  refine ⟨?_, ?_, ?_, ?_, rfl, rfl⟩
  · cases obj with
    | nil => simp [ingressSecretIndexFunc, Obj.isIngress]
    | other t => simp [ingressSecretIndexFunc, Obj.isIngress]
    | ingress p => cases p <;> simp [ingressSecretIndexFunc, Obj.isIngress]
  · cases obj with
    | nil => simp [ingressServiceIndexFunc, Obj.isIngress]
    | other t => simp [ingressServiceIndexFunc, Obj.isIngress]
    | ingress p => cases p <;> simp [ingressServiceIndexFunc, Obj.isIngress]
  · intro h
    cases obj with
    | nil => exact ⟨rfl, rfl⟩
    | other t => exact ⟨rfl, rfl⟩
    | ingress p => simp [Obj.isIngress] at h
  · intro ing h
    subst h
    exact ⟨⟨_, rfl⟩, ⟨_, rfl⟩⟩

/-- An instance of `index_error_iff`: an object of another type, as in the test
`obj-not-ing`. -/
theorem index_error_iff_witness :
    ingressSecretIndexFunc none (.other "*argotunnel.unit")
        = .returned (some []) (some "index unexpected obj type: *argotunnel.unit")
      ∧ ingressServiceIndexFunc (.other "*argotunnel.unit")
        = .returned (some []) (some "index unexpected obj type: *argotunnel.unit") :=
  (index_error_iff none (.other "*argotunnel.unit")).2.2.1 (by decide)

/-! ### Item keys -/

/-- C9: for all strings, empty ones included, `itemKeyFunc(namespace, name)` is
`namespace ++ "/" ++ name`: its characters are those of the namespace, a slash and
those of the name; so `("", "")` gives `/`, `("unit-ns", "")` gives `unit-ns/` and
`("", "unit-n")` gives `/unit-n`. -/
theorem itemKeyFunc_eq (namespace_ name : String) :
    itemKeyFunc namespace_ name = namespace_ ++ "/" ++ name
      ∧ (itemKeyFunc namespace_ name).data = namespace_.data ++ '/' :: name.data
      ∧ itemKeyFunc "" "" = "/"
      ∧ itemKeyFunc "unit-ns" "" = "unit-ns/"
      ∧ itemKeyFunc "" "unit-n" = "/unit-n"
      ∧ itemKeyFunc "unit-ns" "unit-n" = "unit-ns/unit-n" := by
  refine ⟨rfl, ?_, by decide, by decide, by decide, by decide⟩
  simp [itemKeyFunc, String.data_append]

/-! ### Equality of tunnel links -/

theorem equal_iff (a b : syncTunnelLink) :
    a.equal b = true
      ↔ a.host = b.host ∧ a.originURL = b.originURL ∧ a.options = b.options
          ∧ a.originCert.getD [] = b.originCert.getD [] := by
  unfold syncTunnelLink.equal bytesEqual syncTunnelLink.host syncTunnelLink.originURL
    syncTunnelLink.options syncTunnelLink.originCert
  by_cases h1 : a.rule.host = b.rule.host
  · by_cases h2 : a.config.OriginUrl = b.config.OriginUrl
    · by_cases h3 : a.opts = b.opts
      · by_cases h4 : a.cert.getD [] = b.cert.getD []
        · simp [h1, h2, h3, h4]
        · simp [h1, h2, h3, h4]
      · simp [h1, h2, h3]
    · simp [h1, h2]
  · simp [h1]

/-- C8: for two tunnel links built by `newTunnelLink`, `a.equal(b)` is true if and only
if the hosts, the origin URLs and the options are equal and the certificates hold
the same bytes; so two links that differ in one of host, origin URL, options or
certificate bytes are not equal. -/
theorem tunnelLink_equal_iff (r1 r2 : tunnelRule) (c1 c2 : Option (List Nat))
    (o1 o2 : tunnelOptions) (id1 id2 : String) :
    ((newTunnelLink r1 c1 o1 id1).equal (newTunnelLink r2 c2 o2 id2) = true
        ↔ (newTunnelLink r1 c1 o1 id1).host = (newTunnelLink r2 c2 o2 id2).host
          ∧ (newTunnelLink r1 c1 o1 id1).originURL = (newTunnelLink r2 c2 o2 id2).originURL
          ∧ (newTunnelLink r1 c1 o1 id1).options = (newTunnelLink r2 c2 o2 id2).options
          ∧ ((newTunnelLink r1 c1 o1 id1).originCert).getD []
              = ((newTunnelLink r2 c2 o2 id2).originCert).getD [])
      ∧ ((newTunnelLink r1 c1 o1 id1).equal (newTunnelLink r2 c2 o2 id2) = true
        ↔ r1.host = r2.host ∧ getOriginURL r1 = getOriginURL r2 ∧ o1 = o2
          ∧ c1.getD [] = c2.getD [])
      ∧ (r1.host ≠ r2.host →
          (newTunnelLink r1 c1 o1 id1).equal (newTunnelLink r2 c2 o2 id2) = false)
      ∧ (getOriginURL r1 ≠ getOriginURL r2 →
          (newTunnelLink r1 c1 o1 id1).equal (newTunnelLink r2 c2 o2 id2) = false)
      ∧ (o1 ≠ o2 →
          (newTunnelLink r1 c1 o1 id1).equal (newTunnelLink r2 c2 o2 id2) = false)
      ∧ (c1.getD [] ≠ c2.getD [] →
          (newTunnelLink r1 c1 o1 id1).equal (newTunnelLink r2 c2 o2 id2) = false) := by
  have h := equal_iff (newTunnelLink r1 c1 o1 id1) (newTunnelLink r2 c2 o2 id2)
  have h' : (newTunnelLink r1 c1 o1 id1).equal (newTunnelLink r2 c2 o2 id2) = true
      ↔ r1.host = r2.host ∧ getOriginURL r1 = getOriginURL r2 ∧ o1 = o2
        ∧ c1.getD [] = c2.getD [] := h
  refine ⟨h, h', ?_, ?_, ?_, ?_⟩
  · intro hne
    rw [← Bool.not_eq_true, h']
    exact fun hh => hne hh.1
  · intro hne
    rw [← Bool.not_eq_true, h']
    exact fun hh => hne hh.2.1
  · intro hne
    rw [← Bool.not_eq_true, h']
    exact fun hh => hne hh.2.2.1
  · intro hne
    rw [← Bool.not_eq_true, h']
    exact fun hh => hne hh.2.2.2

/-- Witness of `tunnelLink_equal_iff`: two links that differ in one certificate byte. -/
theorem tunnelLink_equal_iff_witness :
    (newTunnelLink ruleUnit (some [1, 2]) optsZero "x").equal
      (newTunnelLink ruleUnit (some [1, 3]) optsZero "x") = false :=
  (tunnelLink_equal_iff ruleUnit ruleUnit (some [1, 2]) (some [1, 3]) optsZero optsZero
    "x" "x").2.2.2.2.2 (by decide)

/-! ### The translator -/

theorem find_tls_secret (tlss : List IngressTLS) (h s : String)
    (hex : ∃ tls ∈ tlss, h ∈ tls.Hosts)
    (hall : ∀ tls ∈ tlss, h ∈ tls.Hosts → tls.SecretName = s) :
    ∃ tls, tlss.find? (fun tls => decide (h ∈ tls.Hosts)) = some tls ∧ tls.SecretName = s := by
  obtain ⟨x, hx, hh⟩ := hex
  cases hf : tlss.find? (fun tls => decide (h ∈ tls.Hosts)) with
  | none =>
    rw [List.find?_eq_none] at hf
    exact absurd hh (by simpa using hf x hx)
  | some tls =>
    have hm := List.find?_some hf
    have hmem := List.mem_of_find?_eq_some hf
    exact ⟨tls, rfl, hall tls hmem (by simpa using hm)⟩

/-- C10: for an Ingress in namespace `ns` whose TLS section maps host `h` to secret `s`
and whose only rule is for host `h` with one path to service `v` by port reference
`p`: if the Service cache holds `ns/v` whose first port matching `p` has number `n`,
the Endpoints cache holds `ns/v` with a subset that has an address, and the Secret
cache holds `ns/s` with bytes under `cert.pem`, then `getRouteFromIngress` returns a
route named after the Ingress whose link map has exactly one key, the rule
`{service: ns/v, secret: ns/s, host: h, port: n}`. -/
theorem getRouteFromIngress_one_rule (t : syncTranslator) (ing : Ingress)
    (h s v pathStr : String) (p : IntOrString) (n : Int)
    (svc : Service) (ep : Endpoints) (sec : Secret) (certBytes : List Nat)
    (hhost : h ≠ "")
    (htls : ∃ tls ∈ ing.Spec.TLS, h ∈ tls.Hosts)
    (hsecret : ∀ tls ∈ ing.Spec.TLS, h ∈ tls.Hosts → tls.SecretName = s)
    (hrules : ing.Spec.Rules
      = [IngressRule.mk h (some (HTTPIngressRuleValue.mk
          [HTTPIngressPath.mk pathStr (IngressBackend.mk v p)]))])
    (hsvc : t.informers.service (itemKeyFunc ing.Namespace v) = some svc)
    (hport : ∃ servicePort, svc.Spec.Ports.find? (portMatches p) = some servicePort
      ∧ servicePort.Port = n)
    (hep : t.informers.endpoint (itemKeyFunc ing.Namespace v) = some ep)
    (haddr : ∃ subset ∈ ep.Subsets, subset.Addresses ≠ [])
    (hsec : t.informers.secret (itemKeyFunc ing.Namespace s) = some sec)
    (hcert : sec.Data "cert.pem" = some certBytes) :
    getRouteFromIngress t (some ing)
      = some
          { name := ing.Name
            namespace_ := ing.Namespace
            options := t.options ing
            links :=
              [{ service := { name := v, namespace_ := ing.Namespace }
                 secret := { name := s, namespace_ := ing.Namespace }
                 host := h
                 port := n }] } := by
  obtain ⟨tls, hfind, hname⟩ := find_tls_secret ing.Spec.TLS h s htls hsecret
  obtain ⟨sp, hsp, hn⟩ := hport
  have hgsp : GetServicePort (some svc) p = (n, true) := by
    show portsLoop p svc.Spec.Ports = _
    rw [portsLoop_eq, hsp, ← hn]
  have hehs : EndpointsHaveSubsets (some ep) = true := (subsetsLoop_iff ep.Subsets).2 haddr
  have hlen : len h > 0 := (len_pos_iff h).2 hhost
  unfold getRouteFromIngress
  simp only [hrules, List.foldl_cons, List.foldl_nil]
  unfold translateRule
  simp only [hlen, if_true, List.foldl_cons, List.foldl_nil]
  unfold translatePath
  simp only [hsvc, hgsp, hfind, hname, hsec, hcert, hep, hehs, if_true, linkMapSet,
    List.not_mem_nil, if_false, List.nil_append]

/-- Witness of `getRouteFromIngress_one_rule`: the scenario of the test `ing-add-rule`. -/
theorem getRouteFromIngress_one_rule_witness :
    getRouteFromIngress trAddRule (some ingAddRule)
      = some { name := "unit", namespace_ := "unit", options := optsZero,
               links := [ruleUnit] } :=
  getRouteFromIngress_one_rule trAddRule ingAddRule "a.unit.com" "sec-a" "svc-a" ""
    (FromString "http") 8080 { Spec := { Ports := [⟨"http", 8080⟩] } }
    { Subsets := [{ Addresses := [⟨"x.x.x.x", "a.unit.com"⟩] }] }
    { Data := fun field =>
        if field = "cert.pem" then some [115, 101, 99, 45, 97, 45, 100, 97, 116, 97]
        else none }
    [115, 101, 99, 45, 97, 45, 100, 97, 116, 97]
    (by decide) ⟨⟨["a.unit.com"], "sec-a"⟩, by decide, by decide⟩ (by decide) rfl
    (by decide) ⟨⟨"http", 8080⟩, by decide, rfl⟩ (by decide)
    ⟨{ Addresses := [⟨"x.x.x.x", "a.unit.com"⟩] }, by decide, by decide⟩
    rfl rfl

end Argotunnel

namespace Argotunnel

/-! ### The tunnel link as a state machine -/

/-- A start on a stopped link: two fresh channels, one repair task, one launch task. -/
theorem start_stopped (s : LinkState) (h : s.link.stopCh = none) :
    start s = some
      ({ link := { s.link with stopCh := some s.nextCh, quitCh := some (s.nextCh + 1) }
         nextCh := s.nextCh + 2
         closed := s.closed
         launches := s.launches ++ [some s.nextCh]
         repairs := s.repairs ++ [some (s.nextCh + 1)] }, none) := by
  simp [start, makeChan, h]

theorem start_running (s : LinkState) (h : s.link.stopCh ≠ none) :
    start s = some (s, none) := by
  simp [start, h]

theorem stop_stopped (s : LinkState) (h : s.link.stopCh = none) :
    stop s = some (s, none) := by
  simp [stop, h]

/-- A stop on a running link with consistent handles: both channels are closed, the
quit channel first, and both handles cleared. -/
theorem stop_running (s : LinkState) (a b : Nat) (hs : s.link.stopCh = some a)
    (hq : s.link.quitCh = some b) (hab : a ≠ b) (ha : a ∉ s.closed) (hb : b ∉ s.closed) :
    stop s = some
      ({ s with link := { s.link with stopCh := none, quitCh := none }
                closed := s.closed ++ [b, a] }, none) := by
  have hab' : ¬ a = b := hab
  simp [stop, closeChan, hs, hq, ha, hb, hab']

theorem repair_stopped (s : LinkState) (clientID : String) (h : s.link.stopCh = none) :
    repairFunc s clientID = some s := by
  simp [repairFunc, h]

/-- A repair on a running link whose stop channel is open. -/
theorem repair_running (s : LinkState) (clientID : String) (a : Nat)
    (hs : s.link.stopCh = some a) (ha : a ∉ s.closed) :
    repairFunc s clientID = some
      { link := { s.link with stopCh := some s.nextCh
                              config := { s.link.config with ClientID := clientID } }
        nextCh := s.nextCh + 1
        closed := s.closed ++ [a]
        launches := s.launches ++ [some s.nextCh]
        repairs := s.repairs } := by
  simp [repairFunc, closeChan, makeChan, hs, ha]

theorem wf_initState (link : syncTunnelLink) (hs : link.stopCh = none)
    (hq : link.quitCh = none) : (initState link).wf := by
  refine ⟨by simp [initState], Or.inl ⟨hs, hq⟩⟩

/-- Every step from a consistent state returns, to a consistent state, and leaves
the rule, the certificate, the options and the origin URL alone. -/
theorem step_wf (s : LinkState) (op : LinkOp) (hwf : s.wf) :
    ∃ s1, step s op = some s1 ∧ s1.wf ∧ s1.link.rule = s.link.rule
      ∧ s1.link.cert = s.link.cert ∧ s1.link.opts = s.link.opts
      ∧ s1.link.config.OriginUrl = s.link.config.OriginUrl
      ∧ ∃ clientID, s1.link.config = { s.link.config with ClientID := clientID } := by
  obtain ⟨hcl, hh⟩ := hwf
  cases op with
  | start =>
    rcases hh with ⟨hs, hq⟩ | ⟨a, b, hs, hq, hab, ha, hb, hac, hbc⟩
    · have hstep := congrArg (Option.map Prod.fst) (start_stopped s hs)
      refine ⟨_, hstep, ⟨?_, ?_⟩, rfl, rfl, rfl, rfl, ⟨s.link.config.ClientID, rfl⟩⟩
      · intro c hc
        have := hcl c hc
        show c < s.nextCh + 2
        omega
      · refine Or.inr ⟨s.nextCh, s.nextCh + 1, rfl, rfl, by omega, ?_, ?_, ?_, ?_⟩
        · show s.nextCh < s.nextCh + 2
          omega
        · show s.nextCh + 1 < s.nextCh + 2
          omega
        · intro hc
          have := hcl _ hc
          omega
        · intro hc
          have := hcl _ hc
          omega
    · have hne : s.link.stopCh ≠ none := by simp [hs]
      exact ⟨s, congrArg (Option.map Prod.fst) (start_running s hne),
        ⟨hcl, Or.inr ⟨a, b, hs, hq, hab, ha, hb, hac, hbc⟩⟩, rfl, rfl, rfl, rfl,
        ⟨s.link.config.ClientID, rfl⟩⟩
  | stop =>
    rcases hh with ⟨hs, hq⟩ | ⟨a, b, hs, hq, hab, ha, hb, hac, hbc⟩
    · exact ⟨s, congrArg (Option.map Prod.fst) (stop_stopped s hs), ⟨hcl, Or.inl ⟨hs, hq⟩⟩,
        rfl, rfl, rfl, rfl, ⟨s.link.config.ClientID, rfl⟩⟩
    · have hstep := congrArg (Option.map Prod.fst) (stop_running s a b hs hq hab hac hbc)
      refine ⟨_, hstep, ⟨?_, Or.inl ⟨rfl, rfl⟩⟩, rfl, rfl, rfl, rfl,
        ⟨s.link.config.ClientID, rfl⟩⟩
      intro c hc
      simp only [List.mem_append, List.mem_cons, List.mem_singleton, List.not_mem_nil,
        or_false] at hc
      rcases hc with hc | hc | hc
      · exact hcl c hc
      · rw [hc]; exact hb
      · rw [hc]; exact ha
  | repair clientID =>
    rcases hh with ⟨hs, hq⟩ | ⟨a, b, hs, hq, hab, ha, hb, hac, hbc⟩
    · exact ⟨s, repair_stopped s clientID hs, ⟨hcl, Or.inl ⟨hs, hq⟩⟩, rfl, rfl, rfl, rfl,
        ⟨s.link.config.ClientID, rfl⟩⟩
    · refine ⟨_, repair_running s clientID a hs hac, ⟨?_, ?_⟩, rfl, rfl, rfl, rfl,
        ⟨clientID, rfl⟩⟩
      · intro c hc
        simp only [List.mem_append, List.mem_singleton] at hc
        show c < s.nextCh + 1
        rcases hc with hc | hc
        · have := hcl c hc
          omega
        · omega
      · refine Or.inr ⟨s.nextCh, b, rfl, hq, by omega, ?_, ?_, ?_, ?_⟩
        · show s.nextCh < s.nextCh + 1
          omega
        · show b < s.nextCh + 1
          omega
        · intro hc
          simp only [List.mem_append, List.mem_singleton] at hc
          rcases hc with hc | hc
          · have := hcl _ hc
            omega
          · omega
        · intro hc
          simp only [List.mem_append, List.mem_singleton] at hc
          rcases hc with hc | hc
          · exact hbc hc
          · exact hab hc.symm

/-- Every run from a consistent state returns, to a consistent state, and leaves the
rule, the certificate, the options and the origin URL alone. -/
theorem run_wf (ops : List LinkOp) (s : LinkState) (hwf : s.wf) :
    ∃ s1, run s ops = some s1 ∧ s1.wf ∧ s1.link.rule = s.link.rule
      ∧ s1.link.cert = s.link.cert ∧ s1.link.opts = s.link.opts
      ∧ s1.link.config.OriginUrl = s.link.config.OriginUrl
      ∧ ∃ clientID, s1.link.config = { s.link.config with ClientID := clientID } := by
  induction ops generalizing s with
  | nil => exact ⟨s, rfl, hwf, rfl, rfl, rfl, rfl, ⟨s.link.config.ClientID, rfl⟩⟩
  | cons op ops ih =>
    obtain ⟨s1, h1, hwf1, e1, e2, e3, e4, id1, e5⟩ := step_wf s op hwf
    obtain ⟨s2, h2, hwf2, f1, f2, f3, f4, id2, f5⟩ := ih s1 hwf1
    refine ⟨s2, ?_, hwf2, f1.trans e1, f2.trans e2, f3.trans e3, f4.trans e4, id2, ?_⟩
    · simp [run, h1, h2]
    · rw [f5, e5]

/-- C11: in the sequential model of one link, on a stopped link with consistent
handles two calls of `start` in a row spawn one launch task and one repair task in
total, the second call leaving the state unchanged; two calls of `stop` in a row
after that `start` close the quit channel and the stop channel once each, the
second call leaving the state unchanged; `start` always returns, `stop` returns on
every consistent state, and the error they return is always nil. -/
theorem start_stop_twice (s : LinkState) (hwf : s.wf) (hstopped : s.link.stopCh = none) :
    ∃ s1 s2 q c,
      start s = some (s1, none) ∧ start s1 = some (s1, none)
        ∧ s1.launches.length = s.launches.length + 1
        ∧ s1.repairs.length = s.repairs.length + 1
        ∧ s1.closed = s.closed
        ∧ s1.link.quitCh = some q ∧ s1.link.stopCh = some c
        ∧ stop s1 = some (s2, none) ∧ stop s2 = some (s2, none)
        ∧ s2.closed = s.closed ++ [q, c]
        ∧ s2.closed.count q = 1 ∧ s2.closed.count c = 1
        ∧ s2.link.quitCh = none ∧ s2.link.stopCh = none
        ∧ s2.launches = s1.launches ∧ s2.repairs = s1.repairs
        ∧ (∀ t, ∃ t1, start t = some (t1, none))
        ∧ (∀ t, t.wf → ∃ t1, stop t = some (t1, none))
        ∧ (∀ t t1 e, stop t = some (t1, e) → e = none) := by
  obtain ⟨hcl, _⟩ := hwf
  have hq : s.nextCh + 1 ∉ s.closed := fun hc => by have := hcl _ hc; omega
  have hc : s.nextCh ∉ s.closed := fun hc => by have := hcl _ hc; omega
  have hne : s.nextCh ≠ s.nextCh + 1 := by omega
  refine ⟨_, _, s.nextCh + 1, s.nextCh, start_stopped s hstopped, start_running _ (by simp),
    by simp, by simp, rfl, rfl, rfl,
    stop_running _ s.nextCh (s.nextCh + 1) rfl rfl hne hc hq, stop_stopped _ rfl, rfl,
    ?_, ?_, rfl, rfl, rfl, rfl, ?_, ?_, ?_⟩
  · show (s.closed ++ [s.nextCh + 1, s.nextCh]).count (s.nextCh + 1) = 1
    rw [List.count_append, List.count_eq_zero_of_not_mem hq]
    simp
  · show (s.closed ++ [s.nextCh + 1, s.nextCh]).count s.nextCh = 1
    rw [List.count_append, List.count_eq_zero_of_not_mem hc]
    simp
  · intro t
    by_cases h : t.link.stopCh = none
    · exact ⟨_, start_stopped t h⟩
    · exact ⟨_, start_running t h⟩
  · intro t ht
    rcases ht.2 with ⟨hs, _⟩ | ⟨a, b, hs, hq, hab, _, _, hac, hbc⟩
    · exact ⟨_, stop_stopped t hs⟩
    · exact ⟨_, stop_running t a b hs hq hab hac hbc⟩
  · intro t t1 e h
    unfold stop at h
    by_cases h0 : t.link.stopCh = none
    · simp [h0] at h
      exact h.2.symm
    · simp only [h0, if_false] at h
      cases h1 : closeChan t t.link.quitCh with
      | none => simp [h1] at h
      | some u =>
        rw [h1] at h
        simp only at h
        cases h2 : closeChan u u.link.stopCh with
        | none => simp [h2] at h
        | some v =>
          rw [h2] at h
          simp at h
          exact h.2.symm

/-- Witness of `start_stop_twice`: a freshly built link. -/
theorem start_stop_twice_witness :
    ∃ s1 s2 q c,
      start (initState linkUnit) = some (s1, none) ∧ start s1 = some (s1, none)
        ∧ s1.launches.length = (initState linkUnit).launches.length + 1
        ∧ s1.repairs.length = (initState linkUnit).repairs.length + 1
        ∧ s1.closed = (initState linkUnit).closed
        ∧ s1.link.quitCh = some q ∧ s1.link.stopCh = some c
        ∧ stop s1 = some (s2, none) ∧ stop s2 = some (s2, none)
        ∧ s2.closed = (initState linkUnit).closed ++ [q, c]
        ∧ s2.closed.count q = 1 ∧ s2.closed.count c = 1
        ∧ s2.link.quitCh = none ∧ s2.link.stopCh = none
        ∧ s2.launches = s1.launches ∧ s2.repairs = s1.repairs
        ∧ (∀ t, ∃ t1, start t = some (t1, none))
        ∧ (∀ t, t.wf → ∃ t1, stop t = some (t1, none))
        ∧ (∀ t t1 e, stop t = some (t1, e) → e = none) :=
  start_stop_twice (initState linkUnit) (wf_initState linkUnit rfl rfl) rfl

/-- C15: in the step model of one link with consistent handles, a repair that reaches
its locked section while the link is stopped leaves the whole state as it is: no
launch task, no channel closed, the same client identifier, the link still stopped;
so after `stop` no sequence of repairs changes the state, and only `start` sets
the handles again. While the link is running, the repair closes the old stop
channel, installs a fresh one, takes the new client identifier and spawns exactly
one launch task, which holds the fresh channel. -/
theorem repair_after_stop (s : LinkState) (hwf : s.wf) :
    (s.link.stopCh = none → ∀ clientID, repairFunc s clientID = some s)
      ∧ (∃ s1, stop s = some (s1, none) ∧ s1.link.stopCh = none
          ∧ (∀ ids : List String, run s1 (ids.map LinkOp.repair) = some s1)
          ∧ ∃ s2, start s1 = some (s2, none) ∧ s2.link.stopCh = some s1.nextCh)
      ∧ (∀ a, s.link.stopCh = some a → ∀ clientID, ∃ s1,
          repairFunc s clientID = some s1
            ∧ s1.closed = s.closed ++ [a]
            ∧ s1.link.stopCh = some s.nextCh ∧ s.nextCh ≠ a ∧ s.nextCh ∉ s1.closed
            ∧ s1.launches = s.launches ++ [some s.nextCh]
            ∧ s1.repairs = s.repairs
            ∧ s1.link.quitCh = s.link.quitCh
            ∧ s1.link.config.ClientID = clientID) := by
  have hrep : ∀ t : LinkState, t.link.stopCh = none →
      ∀ ids : List String, run t (ids.map LinkOp.repair) = some t := by
    intro t ht ids
    induction ids with
    | nil => rfl
    | cons id ids ih =>
      simp only [List.map_cons, run, step, repair_stopped t id ht]
      exact ih
  refine ⟨fun h clientID => repair_stopped s clientID h, ?_, ?_⟩
  · rcases hwf.2 with ⟨hs, _⟩ | ⟨a, b, hs, hq, hab, _, _, hac, hbc⟩
    · exact ⟨s, stop_stopped s hs, hs, hrep s hs, _, start_stopped s hs, rfl⟩
    · exact ⟨_, stop_running s a b hs hq hab hac hbc, rfl, hrep _ rfl, _,
        start_stopped _ rfl, rfl⟩
  · intro a hs clientID
    rcases hwf.2 with ⟨hs0, _⟩ | ⟨a0, b, hs0, hq, hab, ha, _, hac, hbc⟩
    · rw [hs0] at hs; cases hs
    · rw [hs0] at hs
      cases hs
      refine ⟨_, repair_running s clientID a hs0 hac, rfl, rfl, by omega, ?_, rfl, rfl, rfl,
        rfl⟩
      intro hc
      simp only [List.mem_append, List.mem_singleton] at hc
      rcases hc with hc | hc
      · have := hwf.1 _ hc
        omega
      · omega

/-- Witness of `repair_after_stop`: a repair on a started link. -/
theorem repair_after_stop_witness :
    ∃ s1, repairFunc stateStarted "y" = some s1
      ∧ s1.closed = stateStarted.closed ++ [0]
      ∧ s1.link.stopCh = some stateStarted.nextCh ∧ stateStarted.nextCh ≠ 0
      ∧ stateStarted.nextCh ∉ s1.closed
      ∧ s1.launches = stateStarted.launches ++ [some stateStarted.nextCh]
      ∧ s1.repairs = stateStarted.repairs
      ∧ s1.link.quitCh = stateStarted.link.quitCh
      ∧ s1.link.config.ClientID = "y" :=
  (repair_after_stop stateStarted
    ⟨by decide, Or.inr ⟨0, 1, rfl, rfl, by decide, by decide, by decide, by decide,
      by decide⟩⟩).2.2 0 rfl "y"

/-- C17: from a link built by `newTunnelLink`, every finite sequence of `start`, `stop`
and repair steps returns, keeps the stop handle nil if and only if the quit handle
is nil, and never changes the rule, the certificate bytes, the options, the host
or the origin URL: the link differs from the built one only in its two handles
and its client identifier. -/
theorem run_invariant (rule : tunnelRule) (cert : Option (List Nat)) (options : tunnelOptions)
    (clientID : String) (ops : List LinkOp) :
    ∃ s, run (initState (newTunnelLink rule cert options clientID)) ops = some s
      ∧ (s.link.stopCh = none ↔ s.link.quitCh = none)
      ∧ s.link.routeRule = rule
      ∧ s.link.originCert = cert
      ∧ s.link.options = options
      ∧ s.link.host = rule.host
      ∧ s.link.originURL = getOriginURL rule
      ∧ ∃ clientID1,
          s.link = { newTunnelLink rule cert options clientID1 with
                      stopCh := s.link.stopCh, quitCh := s.link.quitCh } := by
  obtain ⟨s, hrun, hwf, e1, e2, e3, e4, id1, e5⟩ :=
    run_wf ops (initState (newTunnelLink rule cert options clientID))
      (wf_initState _ rfl rfl)
  have h1 : s.link.rule = rule := e1
  have h2 : s.link.cert = cert := e2
  have h3 : s.link.opts = options := e3
  have h5 : s.link.config = newLinkTunnelConfig rule cert options id1 := e5
  refine ⟨s, hrun, ?_, h1, h2, h3, ?_, ?_, id1, ?_⟩
  · rcases hwf.2 with ⟨hs, hq⟩ | ⟨a, b, hs, hq, _⟩
    · simp [hs, hq]
    · simp [hs, hq]
  · show s.link.rule.host = rule.host
    rw [h1]
  · exact e4
  · rcases hl : s.link with ⟨r, c, o, cfg, q, st⟩
    rw [hl] at h1 h2 h3 h5
    simp only at h1 h2 h3 h5
    subst h1 h2 h3 h5
    rfl

end Argotunnel

namespace Controller

open K8s

/-! ### The numeric parsers of `strconv` -/

theorem digitVal_of_digit (c : Char) (h : isDecDigit c = true) :
    digitVal c = some (c.toNat - 48) ∧ c.toNat - 48 < 10 := by
  unfold isDecDigit at h
  have h1 : 48 ≤ c.toNat ∧ c.toNat ≤ 57 := by simpa using h
  unfold digitVal
  rw [if_pos h1]
  exact ⟨rfl, by omega⟩

theorem digitVal_of_not_digit (c : Char) (h : isDecDigit c = false) (d : Nat)
    (hd : digitVal c = some d) : d ≥ 10 := by
  unfold isDecDigit at h
  have h1 : ¬ (48 ≤ c.toNat ∧ c.toNat ≤ 57) := by simpa using h
  unfold digitVal at hd
  rw [if_neg h1] at hd
  split at hd
  · cases hd; omega
  · split at hd
    · cases hd; omega
    · cases hd

theorem le_digitsValue (cs : List Char) (n : Nat) : n ≤ digitsValue n cs := by
  induction cs generalizing n with
  | nil => exact Nat.le_refl n
  | cons c cs ih =>
    have := ih (n * 10 + (c.toNat - 48))
    show n ≤ digitsValue (n * 10 + (c.toNat - 48)) cs
    omega

/-- The loop of `ParseUint` in base 10: it succeeds exactly on digits whose value
fits, and then returns that value; a range error comes with the largest value. -/
theorem parseUintLoop_spec (maxVal : Nat) (hmax : maxVal < uint64Mod) (cs : List Char)
    (n : Nat) (hn : n ≤ maxVal) :
    (cs.all isDecDigit = true ∧ digitsValue n cs ≤ maxVal
        ∧ parseUintLoop 10 1844674407370955162 maxVal cs n = (digitsValue n cs, none))
      ∨ (¬ (cs.all isDecDigit = true ∧ digitsValue n cs ≤ maxVal)
        ∧ (parseUintLoop 10 1844674407370955162 maxVal cs n = (0, some .ErrSyntax)
          ∨ parseUintLoop 10 1844674407370955162 maxVal cs n = (maxVal, some .ErrRange))) := by
  unfold uint64Mod at hmax
  induction cs generalizing n with
  | nil => exact Or.inl ⟨rfl, hn, rfl⟩
  | cons c cs ih =>
    have hval : digitsValue n (c :: cs) = digitsValue (n * 10 + (c.toNat - 48)) cs := rfl
    have hge := le_digitsValue cs (n * 10 + (c.toNat - 48))
    cases hc : isDecDigit c with
    | false =>
      right
      refine ⟨by simp [hc], ?_⟩
      unfold parseUintLoop
      cases hd : digitVal c with
      | none => exact Or.inl rfl
      | some d =>
        have := digitVal_of_not_digit c hc d hd
        simp only [this, ge_iff_le, if_true]
        exact Or.inl trivial
    | true =>
      obtain ⟨hd, hlt⟩ := digitVal_of_digit c hc
      unfold parseUintLoop
      rw [hd]
      simp only [ge_iff_le]
      rw [if_neg (by omega)]
      by_cases hcut : 1844674407370955162 ≤ n
      · rw [if_pos hcut]
        exact Or.inr ⟨fun h => by omega, Or.inr rfl⟩
      · rw [if_neg hcut]
        simp only [uint64Mod]
        have h0 : n * 10 % 18446744073709551616 = n * 10 := Nat.mod_eq_of_lt (by omega)
        rw [h0]
        by_cases hfit : n * 10 + (c.toNat - 48) ≤ maxVal
        · have h1 : (n * 10 + (c.toNat - 48)) % 18446744073709551616
              = n * 10 + (c.toNat - 48) := Nat.mod_eq_of_lt (by omega)
          rw [h1, if_neg (by omega)]
          rcases ih (n * 10 + (c.toNat - 48)) hfit with ⟨ha, hb, hr⟩ | ⟨hnot, hr⟩
          · exact Or.inl ⟨by simp [hc, ha], by omega, by rw [hr, hval]⟩
          · refine Or.inr ⟨?_, hr⟩
            intro h
            apply hnot
            refine ⟨?_, by omega⟩
            have := h.1
            simp only [List.all_cons, hc, Bool.true_and] at this
            exact this
        · have hcond : (n * 10 + (c.toNat - 48)) % 18446744073709551616 < n * 10
              ∨ (n * 10 + (c.toNat - 48)) % 18446744073709551616 > maxVal := by omega
          rw [if_pos hcond]
          exact Or.inr ⟨fun h => by omega, Or.inr rfl⟩

theorem len_eq_zero_iff (s : String) : len s = 0 ↔ s.data = [] := by
  have h := Argotunnel.len_pos_iff s
  constructor
  · intro h0
    by_contra hne
    have : s ≠ "" := fun he => hne (by rw [he])
    have := h.2 this
    omega
  · intro hd
    have : s = "" := by
      rcases s with ⟨l⟩
      simp only at hd
      rw [hd]
    rw [this]
    rfl

/-- What `ParseUint` does in base 10 for a bit size whose largest value is `maxVal`. -/
theorem ParseUint_spec (s : String) (bitSize maxVal : Nat)
    (hm : ((2 ^ bitSize) % uint64Mod + (uint64Mod - 1)) % uint64Mod = maxVal)
    (hmax : maxVal < uint64Mod) :
    (∃ v, unsignedLiteral s.data = some v ∧ v ≤ maxVal ∧ ParseUint s 10 bitSize = (v, none))
      ∨ ((∀ v, unsignedLiteral s.data = some v → maxVal < v)
        ∧ (ParseUint s 10 bitSize = (0, some .ErrSyntax)
          ∨ ParseUint s 10 bitSize = (maxVal, some .ErrRange))) := by
  unfold ParseUint
  by_cases h0 : s.data = []
  · right
    rw [if_pos ((len_eq_zero_iff s).2 h0)]
    exact ⟨fun v hv => by simp [unsignedLiteral, h0] at hv, Or.inl rfl⟩
  · rw [if_neg (fun h => h0 ((len_eq_zero_iff s).1 h))]
    have hcut : (uint64Mod - 1) / 10 + 1 = 1844674407370955162 := by decide
    simp only [hm, hcut]
    rcases parseUintLoop_spec maxVal hmax s.data 0 (Nat.zero_le _) with ⟨ha, hb, hr⟩ | ⟨hnot, hr⟩
    · exact Or.inl ⟨_, by simp [unsignedLiteral, h0, ha], hb, hr⟩
    · refine Or.inr ⟨?_, hr⟩
      intro v hv
      unfold unsignedLiteral at hv
      split at hv
      · rename_i hlit
        cases hv
        by_contra hle
        exact hnot ⟨hlit.2, by omega⟩
      · cases hv

/-- What `parseMetaUint64` returns, in terms of unsigned literals. -/
theorem parseMetaUint64_eq (obj : Object) (key : String) :
    parseMetaUint64 obj key
      = match (obj.annotation key).bind (fun s => unsignedLiteral s.data) with
        | some v => if v ≤ 18446744073709551615 then (v, true) else (0, false)
        | none => (0, false) := by
  unfold parseMetaUint64
  cases hk : obj.annotation key with
  | none => rfl
  | some s =>
    simp only [Option.some_bind]
    rcases ParseUint_spec s 64 18446744073709551615 (by decide) (by decide) with
      ⟨v, hl, hv, hr⟩ | ⟨hl, hr | hr⟩
    · rw [hr, hl]
      simp [hv]
    · rw [hr]
      cases hu : unsignedLiteral s.data with
      | none => rfl
      | some v =>
        have := hl v hu
        simp only [if_neg (by omega : ¬ v ≤ 18446744073709551615)]
    · rw [hr]
      cases hu : unsignedLiteral s.data with
      | none => rfl
      | some v =>
        have := hl v hu
        simp only [if_neg (by omega : ¬ v ≤ 18446744073709551615)]

/-- What `parseMetaUint` returns, in terms of unsigned literals. -/
theorem parseMetaUint_eq (obj : Object) (key : String) :
    parseMetaUint obj key
      = match (obj.annotation key).bind (fun s => unsignedLiteral s.data) with
        | some v => if v ≤ 4294967295 then (v, true) else (0, false)
        | none => (0, false) := by
  unfold parseMetaUint
  cases hk : obj.annotation key with
  | none => rfl
  | some s =>
    simp only [Option.some_bind]
    rcases ParseUint_spec s 32 4294967295 (by decide) (by decide) with
      ⟨v, hl, hv, hr⟩ | ⟨hl, hr | hr⟩
    · rw [hr, hl]
      simp [hv]
    · rw [hr]
      cases hu : unsignedLiteral s.data with
      | none => rfl
      | some v =>
        have := hl v hu
        simp only [if_neg (by omega : ¬ v ≤ 4294967295)]
    · rw [hr]
      cases hu : unsignedLiteral s.data with
      | none => rfl
      | some v =>
        have := hl v hu
        simp only [if_neg (by omega : ¬ v ≤ 4294967295)]

/-- The range check of `ParseInt` for 32 bits, on what `ParseUint` returned for the
digits `rest`. -/
theorem parseIntRange_spec (neg : Bool) (rest : List Char) :
    (∃ u, unsignedLiteral rest = some u
        ∧ -2147483648 ≤ (if neg then -(u : Int) else (u : Int))
        ∧ (if neg then -(u : Int) else (u : Int)) ≤ 2147483647
        ∧ parseIntRange neg 32 (ParseUint (String.mk rest) 10 32)
            = (if neg then -(u : Int) else (u : Int), none))
      ∨ ((∀ u, unsignedLiteral rest = some u →
            (if neg then -(u : Int) else (u : Int)) < -2147483648
              ∨ 2147483647 < (if neg then -(u : Int) else (u : Int)))
        ∧ ∃ v e, parseIntRange neg 32 (ParseUint (String.mk rest) 10 32) = (v, some e)) := by
  have hcut : (2 : Nat) ^ (32 - 1) = 2147483648 := by decide
  rcases ParseUint_spec (String.mk rest) 32 4294967295 (by decide) (by decide) with
    ⟨u, hl, hu, hr⟩ | ⟨hl, hr | hr⟩
  · have hl' : unsignedLiteral rest = some u := hl
    rw [hr]
    unfold parseIntRange
    simp only [hcut]
    cases neg with
    | false =>
      by_cases hfit : u ≤ 2147483647
      · left
        refine ⟨u, hl', by simp; omega, by simp; omega, ?_⟩
        simp
        omega
      · right
        refine ⟨?_, ?_⟩
        · intro u2 hu2
          rw [hl'] at hu2
          cases hu2
          right
          simp
          omega
        · refine ⟨((2147483648 : Nat) : Int) - 1, .ErrRange, ?_⟩
          simp
          omega
    | true =>
      by_cases hfit : u ≤ 2147483648
      · left
        refine ⟨u, hl', by simp; omega, by simp; omega, ?_⟩
        simp
        omega
      · right
        refine ⟨?_, ?_⟩
        · intro u2 hu2
          rw [hl'] at hu2
          cases hu2
          left
          simp
          omega
        · refine ⟨-((2147483648 : Nat) : Int), .ErrRange, ?_⟩
          simp
          omega
  · right
    have hl' : ∀ u, unsignedLiteral rest = some u → 4294967295 < u := hl
    refine ⟨?_, ?_⟩
    · intro u hu
      have := hl' u hu
      cases neg <;> simp <;> omega
    · rw [hr]
      exact ⟨0, .ErrSyntax, rfl⟩
  · right
    have hl' : ∀ u, unsignedLiteral rest = some u → 4294967295 < u := hl
    refine ⟨?_, ?_⟩
    · intro u hu
      have := hl' u hu
      cases neg <;> simp <;> omega
    · rw [hr]
      unfold parseIntRange
      simp only [hcut]
      cases neg
      · exact ⟨((2147483648 : Nat) : Int) - 1, .ErrRange, by simp⟩
      · exact ⟨-((2147483648 : Nat) : Int), .ErrRange, by simp⟩

/-- What `ParseInt` does in base 10 for 32 bits. -/
theorem ParseInt_spec (s : String) :
    (∃ v, signedLiteral s.data = some v ∧ -2147483648 ≤ v ∧ v ≤ 2147483647
        ∧ ParseInt s 10 32 = (v, none))
      ∨ ((∀ v, signedLiteral s.data = some v → v < -2147483648 ∨ 2147483647 < v)
        ∧ ∃ v e, ParseInt s 10 32 = (v, some e)) := by
  unfold ParseInt
  cases hd : s.data with
  | nil =>
    right
    rw [if_pos ((len_eq_zero_iff s).2 hd)]
    exact ⟨fun v hv => by simp [signedLiteral] at hv, 0, .ErrSyntax, rfl⟩
  | cons c cs =>
    rw [if_neg (fun h => by have := (len_eq_zero_iff s).1 h; rw [hd] at this; cases this)]
    simp only
    unfold signedLiteral
    by_cases hp : c = '+'
    · simp only [hp, if_true]
      rcases parseIntRange_spec false cs with ⟨u, hl, h1, h2, hr⟩ | ⟨hl, hr⟩
      · exact Or.inl ⟨u, by simp [hl], by simpa using h1, by simpa using h2, by simpa using hr⟩
      · refine Or.inr ⟨?_, hr⟩
        intro v hv
        cases hu : unsignedLiteral cs with
        | none => simp [hu] at hv
        | some u =>
          simp [hu] at hv
          have := hl u hu
          rw [← hv]
          simpa using this
    · by_cases hm : c = '-'
      · have hne : ¬ ('-' = '+') := by decide
        simp only [hm, hne, if_true, if_false]
        rcases parseIntRange_spec true cs with ⟨u, hl, h1, h2, hr⟩ | ⟨hl, hr⟩
        · exact Or.inl ⟨-(u : Int), by simp [hl], by simpa using h1, by simpa using h2,
            by simpa using hr⟩
        · refine Or.inr ⟨?_, hr⟩
          intro v hv
          cases hu : unsignedLiteral cs with
          | none => simp [hu] at hv
          | some u =>
            simp [hu] at hv
            have := hl u hu
            rw [← hv]
            simpa using this
      · simp only [hp, hm, if_false]
        rcases parseIntRange_spec false (c :: cs) with ⟨u, hl, h1, h2, hr⟩ | ⟨hl, hr⟩
        · exact Or.inl ⟨u, by simp [hl], by simpa using h1, by simpa using h2,
            by simpa using hr⟩
        · refine Or.inr ⟨?_, hr⟩
          intro v hv
          cases hu : unsignedLiteral (c :: cs) with
          | none => simp [hu] at hv
          | some u =>
            simp [hu] at hv
            have := hl u hu
            rw [← hv]
            simpa using this

/-- What `parseMetaInt` returns, in terms of signed literals. -/
theorem parseMetaInt_eq (obj : Object) (key : String) :
    parseMetaInt obj key
      = match (obj.annotation key).bind (fun s => signedLiteral s.data) with
        | some v => if -2147483648 ≤ v ∧ v ≤ 2147483647 then (v, true) else (0, false)
        | none => (0, false) := by
  unfold parseMetaInt
  cases hk : obj.annotation key with
  | none => rfl
  | some s =>
    simp only [Option.some_bind]
    rcases ParseInt_spec s with ⟨v, hl, h1, h2, hr⟩ | ⟨hl, v, e, hr⟩
    · rw [hr, hl]
      simp [h1, h2]
    · rw [hr]
      cases hu : signedLiteral s.data with
      | none => rfl
      | some w =>
        have := hl w hu
        simp only [if_neg (by omega : ¬ (-2147483648 ≤ w ∧ w ≤ 2147483647))]

/-! ### The annotation parser -/

theorem appendIfOk_getD {α : Type} (opts : Option (List TunnelOption)) (mk : α → TunnelOption)
    (parsed : α × Bool) :
    (appendIfOk opts mk parsed).getD []
      = opts.getD [] ++ (if parsed.2 = true then [mk parsed.1] else []) := by
  unfold appendIfOk appendOption
  cases parsed.2 <;> simp

theorem appendIfOk_none {α : Type} (opts : Option (List TunnelOption)) (mk : α → TunnelOption)
    (parsed : α × Bool) :
    appendIfOk opts mk parsed = none ↔ opts = none ∧ parsed.2 = false := by
  unfold appendIfOk appendOption
  cases parsed.2 <;> simp

/-- A slice is nil exactly when nothing was appended to it. -/
theorem appendIfOk_rel {α : Type} (opts : Option (List TunnelOption)) (mk : α → TunnelOption)
    (parsed : α × Bool) (l : List TunnelOption) (h : opts = if l = [] then none else some l) :
    appendIfOk opts mk parsed
      = if l ++ (if parsed.2 = true then [mk parsed.1] else []) = [] then none
        else some (l ++ (if parsed.2 = true then [mk parsed.1] else [])) := by
  subst h
  unfold appendIfOk appendOption
  cases parsed.2 <;> by_cases hl : l = [] <;> simp [hl]

theorem uint64_option (mk : Nat → TunnelOption) (obj : Object) (key : String) :
    (if (parseMetaUint64 obj key).2 = true then [mk (parseMetaUint64 obj key).1] else [])
      = (((obj.annotation key).bind (fun s => unsignedLiteral s.data)).bind
          (fun v => if v ≤ 18446744073709551615 then some (mk v) else none)).toList := by
  rw [parseMetaUint64_eq]
  cases (obj.annotation key).bind (fun s => unsignedLiteral s.data) with
  | none => rfl
  | some v => by_cases hv : v ≤ 18446744073709551615 <;> simp [hv]

theorem uint_option (mk : Nat → TunnelOption) (obj : Object) (key : String) :
    (if (parseMetaUint obj key).2 = true then [mk (parseMetaUint obj key).1] else [])
      = (((obj.annotation key).bind (fun s => unsignedLiteral s.data)).bind
          (fun v => if v ≤ 4294967295 then some (mk v) else none)).toList := by
  rw [parseMetaUint_eq]
  cases (obj.annotation key).bind (fun s => unsignedLiteral s.data) with
  | none => rfl
  | some v => by_cases hv : v ≤ 4294967295 <;> simp [hv]

theorem int_option (mk : Int → TunnelOption) (obj : Object) (key : String) :
    (if (parseMetaInt obj key).2 = true then [mk (parseMetaInt obj key).1] else [])
      = (((obj.annotation key).bind (fun s => signedLiteral s.data)).bind
          (fun v => if -2147483648 ≤ v ∧ v ≤ 2147483647 then some (mk v) else none)).toList := by
  rw [parseMetaInt_eq]
  cases (obj.annotation key).bind (fun s => signedLiteral s.data) with
  | none => rfl
  | some v => by_cases hv : -2147483648 ≤ v ∧ v ≤ 2147483647 <;> simp [hv]

theorem duration_option (parseDuration : String → Option Int) (mk : Int → TunnelOption)
    (obj : Object) (key : String) :
    (if (parseMetaDuration parseDuration obj key).2 = true then
        [mk (parseMetaDuration parseDuration obj key).1] else [])
      = (((obj.annotation key).bind parseDuration).map mk).toList := by
  unfold parseMetaDuration
  cases obj.annotation key with
  | none => rfl
  | some s =>
    simp only [Option.some_bind]
    cases parseDuration s <;> rfl

theorem string_option (mk : String → TunnelOption) (obj : Object) (key : String) :
    (if (obj.annotationOk key).2 = true then [mk (obj.annotationOk key).1] else [])
      = ((obj.annotation key).map mk).toList := by
  unfold Object.annotationOk
  cases obj.annotation key <;> rfl

theorem bool_option (mk : Bool → TunnelOption) (obj : Object) (key : String) :
    (if (parseMetaBool obj key).2 = true then [mk (parseMetaBool obj key).1] else [])
      = ((obj.annotation key).bind
          (fun s =>
            if s = "true" then some (mk true)
            else if s = "false" then some (mk false)
            else none)).toList := by
  unfold parseMetaBool
  cases obj.annotation key with
  | none => rfl
  | some s =>
    by_cases ht : s = "true"
    · simp [ht]
    · by_cases hf : s = "false"
      · simp [hf]
      · simp [ht, hf]

theorem reduceOption_cons_toList (o : Option TunnelOption) (os : List (Option TunnelOption)) :
    (o :: os).reduceOption = o.toList ++ os.reduceOption := by
  cases o with
  | none => simp [List.reduceOption_cons_of_none]
  | some x => simp [List.reduceOption_cons_of_some]

/-- The parser yields the specified options. -/
theorem parseIngressTunnelOptions_eq (parseDuration : String → Option Int) (ing : Ingress) :
    parseIngressTunnelOptions parseDuration (some ing)
      = .returned
          (if specTunnelOptions parseDuration { Annotations := ing.Annotations } = [] then none
           else some (specTunnelOptions parseDuration { Annotations := ing.Annotations })) := by
  unfold parseIngressTunnelOptions
  simp only
  congr 1
  have h1 := appendIfOk_rel none TunnelOption.CompressionQuality
    (parseMetaUint64 { Annotations := ing.Annotations } annotationIngressCompressionQuality)
    [] (by simp)
  have h2 := appendIfOk_rel _ TunnelOption.HaConnections
    (parseMetaInt { Annotations := ing.Annotations } annotationIngressHAConnections) _ h1
  have h3 := appendIfOk_rel _ TunnelOption.HeartbeatCount
    (parseMetaUint64 { Annotations := ing.Annotations } annotationIngressHeartbeatCount) _ h2
  have h4 := appendIfOk_rel _ TunnelOption.HeartbeatInterval
    (parseMetaDuration parseDuration { Annotations := ing.Annotations }
      annotationIngressHeartbeatInterval) _ h3
  have h5 := appendIfOk_rel _ TunnelOption.LbPool
    (Object.annotationOk { Annotations := ing.Annotations } annotationIngressLoadBalancer) _ h4
  have h6 := appendIfOk_rel _ TunnelOption.DisableChunkedEncoding
    (parseMetaBool { Annotations := ing.Annotations } annotationIngressNoChunkedEncoding) _ h5
  have h7 := appendIfOk_rel _ TunnelOption.Retries
    (parseMetaUint { Annotations := ing.Annotations } annotationIngressRetries) _ h6
  rw [h7]
  have hspec : specTunnelOptions parseDuration { Annotations := ing.Annotations }
      = [] ++ (if (parseMetaUint64 { Annotations := ing.Annotations }
            annotationIngressCompressionQuality).2 = true then
          [TunnelOption.CompressionQuality (parseMetaUint64 { Annotations := ing.Annotations }
            annotationIngressCompressionQuality).1] else [])
        ++ (if (parseMetaInt { Annotations := ing.Annotations }
            annotationIngressHAConnections).2 = true then
          [TunnelOption.HaConnections (parseMetaInt { Annotations := ing.Annotations }
            annotationIngressHAConnections).1] else [])
        ++ (if (parseMetaUint64 { Annotations := ing.Annotations }
            annotationIngressHeartbeatCount).2 = true then
          [TunnelOption.HeartbeatCount (parseMetaUint64 { Annotations := ing.Annotations }
            annotationIngressHeartbeatCount).1] else [])
        ++ (if (parseMetaDuration parseDuration { Annotations := ing.Annotations }
            annotationIngressHeartbeatInterval).2 = true then
          [TunnelOption.HeartbeatInterval (parseMetaDuration parseDuration
            { Annotations := ing.Annotations } annotationIngressHeartbeatInterval).1] else [])
        ++ (if (Object.annotationOk { Annotations := ing.Annotations }
            annotationIngressLoadBalancer).2 = true then
          [TunnelOption.LbPool (Object.annotationOk { Annotations := ing.Annotations }
            annotationIngressLoadBalancer).1] else [])
        ++ (if (parseMetaBool { Annotations := ing.Annotations }
            annotationIngressNoChunkedEncoding).2 = true then
          [TunnelOption.DisableChunkedEncoding (parseMetaBool { Annotations := ing.Annotations }
            annotationIngressNoChunkedEncoding).1] else [])
        ++ (if (parseMetaUint { Annotations := ing.Annotations }
            annotationIngressRetries).2 = true then
          [TunnelOption.Retries (parseMetaUint { Annotations := ing.Annotations }
            annotationIngressRetries).1] else []) := by
    rw [uint64_option, int_option, uint64_option, duration_option, string_option, bool_option,
      uint_option]
    unfold specTunnelOptions
    simp only [reduceOption_cons_toList, List.reduceOption_nil, List.append_nil,
      List.nil_append, List.append_assoc]
  rw [hspec]

/-- C12: for every Ingress, `parseIngressTunnelOptions` returns, without failing, one
option for each of the seven tunnel annotations that is present and parses for its
kind, in the order of the source, and no option for an annotation that is absent or
does not parse; the load-balancer pool yields its option whenever the key is
present; and an Ingress carrying none of the seven keys yields no option (the nil
slice). -/
theorem parseIngressTunnelOptions_spec (parseDuration : String → Option Int) (ing : Ingress) :
    (∃ opts, parseIngressTunnelOptions parseDuration (some ing) = .returned opts
        ∧ opts.getD [] = specTunnelOptions parseDuration { Annotations := ing.Annotations }
        ∧ (opts.getD []).length ≤ 7
        ∧ (∀ v, TunnelOption.CompressionQuality v ∈ opts.getD []
            ↔ ∃ s, Object.annotation { Annotations := ing.Annotations }
                  annotationIngressCompressionQuality = some s
                ∧ unsignedLiteral s.data = some v ∧ v ≤ 18446744073709551615)
        ∧ (∀ v, TunnelOption.HaConnections v ∈ opts.getD []
            ↔ ∃ s, Object.annotation { Annotations := ing.Annotations }
                  annotationIngressHAConnections = some s
                ∧ signedLiteral s.data = some v ∧ -2147483648 ≤ v ∧ v ≤ 2147483647)
        ∧ (∀ v, TunnelOption.HeartbeatCount v ∈ opts.getD []
            ↔ ∃ s, Object.annotation { Annotations := ing.Annotations }
                  annotationIngressHeartbeatCount = some s
                ∧ unsignedLiteral s.data = some v ∧ v ≤ 18446744073709551615)
        ∧ (∀ d, TunnelOption.HeartbeatInterval d ∈ opts.getD []
            ↔ ∃ s, Object.annotation { Annotations := ing.Annotations }
                  annotationIngressHeartbeatInterval = some s
                ∧ parseDuration s = some d)
        ∧ (∀ val, TunnelOption.LbPool val ∈ opts.getD []
            ↔ Object.annotation { Annotations := ing.Annotations }
                annotationIngressLoadBalancer = some val)
        ∧ (∀ b, TunnelOption.DisableChunkedEncoding b ∈ opts.getD []
            ↔ Object.annotation { Annotations := ing.Annotations }
                annotationIngressNoChunkedEncoding = some (if b then "true" else "false"))
        ∧ (∀ v, TunnelOption.Retries v ∈ opts.getD []
            ↔ ∃ s, Object.annotation { Annotations := ing.Annotations }
                  annotationIngressRetries = some s
                ∧ unsignedLiteral s.data = some v ∧ v ≤ 4294967295))
      ∧ ((∀ key ∈ tunnelAnnotations,
            Object.annotation { Annotations := ing.Annotations } key = none) →
          parseIngressTunnelOptions parseDuration (some ing) = .returned none) := by
  have hget : (if specTunnelOptions parseDuration { Annotations := ing.Annotations } = [] then none
        else some (specTunnelOptions parseDuration { Annotations := ing.Annotations })).getD []
      = specTunnelOptions parseDuration { Annotations := ing.Annotations } := by
    by_cases h : specTunnelOptions parseDuration { Annotations := ing.Annotations } = []
    · simp [h]
    · simp [h]
  refine ⟨⟨_, parseIngressTunnelOptions_eq parseDuration ing, hget, ?_, ?_, ?_, ?_, ?_, ?_, ?_,
    ?_⟩, ?_⟩
  · rw [hget]
    unfold specTunnelOptions
    exact le_trans (List.reduceOption_length_le _) (by simp)
  · intro v
    rw [hget]
    unfold specTunnelOptions
    simp only [List.reduceOption_mem_iff, List.mem_cons, List.mem_singleton, List.not_mem_nil,
      eq_comm (a := some (TunnelOption.CompressionQuality v)), Option.bind_eq_some,
      Option.map_eq_some', ite_eq_iff]
    simp
    constructor
    · rintro ⟨⟨s, h1, h2⟩, h3⟩
      exact ⟨s, h1, h2, h3⟩
    · rintro ⟨s, h1, h2, h3⟩
      exact ⟨⟨s, h1, h2⟩, h3⟩
  · intro v
    rw [hget]
    unfold specTunnelOptions
    simp only [List.reduceOption_mem_iff, List.mem_cons, List.mem_singleton, List.not_mem_nil,
      eq_comm (a := some (TunnelOption.HaConnections v)), Option.bind_eq_some,
      Option.map_eq_some', ite_eq_iff]
    simp
    constructor
    · rintro ⟨⟨s, h1, h2⟩, h3⟩
      exact ⟨s, h1, h2, h3⟩
    · rintro ⟨s, h1, h2, h3⟩
      exact ⟨⟨s, h1, h2⟩, h3⟩
  · intro v
    rw [hget]
    unfold specTunnelOptions
    simp only [List.reduceOption_mem_iff, List.mem_cons, List.mem_singleton, List.not_mem_nil,
      eq_comm (a := some (TunnelOption.HeartbeatCount v)), Option.bind_eq_some,
      Option.map_eq_some', ite_eq_iff]
    simp
    constructor
    · rintro ⟨⟨s, h1, h2⟩, h3⟩
      exact ⟨s, h1, h2, h3⟩
    · rintro ⟨s, h1, h2, h3⟩
      exact ⟨⟨s, h1, h2⟩, h3⟩
  · intro d
    rw [hget]
    unfold specTunnelOptions
    simp only [List.reduceOption_mem_iff, List.mem_cons, List.mem_singleton, List.not_mem_nil,
      eq_comm (a := some (TunnelOption.HeartbeatInterval d)), Option.bind_eq_some,
      Option.map_eq_some', ite_eq_iff]
    simp
  · intro val
    rw [hget]
    unfold specTunnelOptions
    simp only [List.reduceOption_mem_iff, List.mem_cons, List.mem_singleton, List.not_mem_nil,
      eq_comm (a := some (TunnelOption.LbPool val)), Option.bind_eq_some,
      Option.map_eq_some', ite_eq_iff]
    simp
  · intro b
    rw [hget]
    unfold specTunnelOptions
    simp only [List.reduceOption_mem_iff, List.mem_cons, List.mem_singleton, List.not_mem_nil,
      eq_comm (a := some (TunnelOption.DisableChunkedEncoding b)), Option.bind_eq_some,
      Option.map_eq_some', ite_eq_iff]
    simp
    cases b <;> simp
  · intro v
    rw [hget]
    unfold specTunnelOptions
    simp only [List.reduceOption_mem_iff, List.mem_cons, List.mem_singleton, List.not_mem_nil,
      eq_comm (a := some (TunnelOption.Retries v)), Option.bind_eq_some,
      Option.map_eq_some', ite_eq_iff]
    simp
    constructor
    · rintro ⟨⟨s, h1, h2⟩, h3⟩
      exact ⟨s, h1, h2, h3⟩
    · rintro ⟨s, h1, h2, h3⟩
      exact ⟨⟨s, h1, h2⟩, h3⟩
  · intro hnone
    rw [parseIngressTunnelOptions_eq]
    have hs : specTunnelOptions parseDuration { Annotations := ing.Annotations } = [] := by
      unfold specTunnelOptions
      rw [hnone _ (by simp [tunnelAnnotations]), hnone _ (by simp [tunnelAnnotations]),
        hnone _ (by simp [tunnelAnnotations]), hnone _ (by simp [tunnelAnnotations]),
        hnone _ (by simp [tunnelAnnotations]), hnone _ (by simp [tunnelAnnotations]),
        hnone _ (by simp [tunnelAnnotations])]
      rfl
    rw [hs]
    rfl

/-- Witness of `parseIngressTunnelOptions_spec`: an Ingress without annotations. -/
theorem parseIngressTunnelOptions_spec_witness :
    parseIngressTunnelOptions (fun _ => none) (some (ingAnnotated [])) = .returned none :=
  (parseIngressTunnelOptions_spec (fun _ => none) (ingAnnotated [])).2 (by decide)

/-- C13: `parseMetaBool` returns `(true, ok = true)` if and only if the annotation's
value is exactly `true`, returns `(false, ok = true)` if and only if it is exactly
`false`, and returns `ok = false` (with value false) for an absent key and for every
other string, such as `True`, `1`, `yes`, ` true` or the empty string. -/
theorem parseMetaBool_spec (obj : Object) (key : String) :
    (parseMetaBool obj key = (true, true) ↔ obj.annotation key = some "true")
      ∧ (parseMetaBool obj key = (false, true) ↔ obj.annotation key = some "false")
      ∧ ((parseMetaBool obj key).2 = false
          ↔ obj.annotation key ≠ some "true" ∧ obj.annotation key ≠ some "false")
      ∧ ((parseMetaBool obj key).2 = false → parseMetaBool obj key = (false, false))
      ∧ (obj.annotation key = none → parseMetaBool obj key = (false, false))
      ∧ parseMetaBool (objWith "k" "True") "k" = (false, false)
      ∧ parseMetaBool (objWith "k" "1") "k" = (false, false)
      ∧ parseMetaBool (objWith "k" "yes") "k" = (false, false)
      ∧ parseMetaBool (objWith "k" " true") "k" = (false, false)
      ∧ parseMetaBool (objWith "k" "") "k" = (false, false) := by
  refine ⟨?_, ?_, ?_, ?_, ?_, by decide, by decide, by decide, by decide, by decide⟩
  all_goals unfold parseMetaBool
  all_goals cases obj.annotation key with
    | none => simp
    | some s =>
      by_cases ht : s = "true"
      · simp [ht]
      · by_cases hf : s = "false"
        · simp [hf]
        · simp [ht, hf]

/-- Witness of `parseMetaBool_spec`: an absent key. -/
theorem parseMetaBool_spec_witness :
    parseMetaBool (objWith "k" "true") "other" = (false, false) :=
  (parseMetaBool_spec (objWith "k" "true") "other").2.2.2.2.1 (by decide)

/-- C14: each numeric annotation parser returns `ok = true` with value `v` if and only
if the key is present and its value is a base-10 integer literal of value `v` within
the parser's range: for `parseMetaInt` an optional sign and digits, from -2^31 to
2^31-1; for `parseMetaUint` digits, up to 2^32-1; for `parseMetaUint64` digits, up to
2^64-1. When `ok` is false the value is 0, as for `2147483648` with `parseMetaInt`
and `4294967296` with `parseMetaUint`. -/
theorem parseMeta_numeric (obj : Object) (key : String) :
    (∀ v, parseMetaInt obj key = (v, true)
        ↔ ∃ s, obj.annotation key = some s ∧ signedLiteral s.data = some v
            ∧ -2147483648 ≤ v ∧ v ≤ 2147483647)
      ∧ (∀ v, parseMetaUint obj key = (v, true)
        ↔ ∃ s, obj.annotation key = some s ∧ unsignedLiteral s.data = some v
            ∧ v ≤ 4294967295)
      ∧ (∀ v, parseMetaUint64 obj key = (v, true)
        ↔ ∃ s, obj.annotation key = some s ∧ unsignedLiteral s.data = some v
            ∧ v ≤ 18446744073709551615)
      ∧ ((parseMetaInt obj key).2 = false → parseMetaInt obj key = (0, false))
      ∧ ((parseMetaUint obj key).2 = false → parseMetaUint obj key = (0, false))
      ∧ ((parseMetaUint64 obj key).2 = false → parseMetaUint64 obj key = (0, false))
      ∧ parseMetaInt (objWith "k" "2147483648") "k" = (0, false)
      ∧ parseMetaInt (objWith "k" "2147483647") "k" = (2147483647, true)
      ∧ parseMetaInt (objWith "k" "-2147483648") "k" = (-2147483648, true)
      ∧ parseMetaUint (objWith "k" "4294967296") "k" = (0, false)
      ∧ parseMetaUint (objWith "k" "4294967295") "k" = (4294967295, true)
      ∧ parseMetaUint64 (objWith "k" "18446744073709551616") "k" = (0, false)
      ∧ parseMetaUint64 (objWith "k" "18446744073709551615") "k"
          = (18446744073709551615, true) := by
  refine ⟨?_, ?_, ?_, ?_, ?_, ?_, by decide, by decide, by decide, by decide, by decide,
    by decide, by decide⟩
  · intro v
    rw [parseMetaInt_eq]
    cases obj.annotation key with
    | none => simp
    | some s =>
      simp only [Option.some_bind, Option.some.injEq, exists_eq_left']
      cases signedLiteral s.data with
      | none => simp
      | some w =>
        by_cases hw : -2147483648 ≤ w ∧ w ≤ 2147483647
        · simp only [if_pos hw, Prod.mk.injEq, and_true, Option.some.injEq]
          constructor
          · intro h; subst h; exact ⟨rfl, hw⟩
          · intro h; exact h.1
        · simp only [if_neg hw, Prod.mk.injEq, Bool.false_eq_true, and_false,
            Option.some.injEq, false_iff]
          intro h
          exact hw (h.1 ▸ h.2)
  · intro v
    rw [parseMetaUint_eq]
    cases obj.annotation key with
    | none => simp
    | some s =>
      simp only [Option.some_bind, Option.some.injEq, exists_eq_left']
      cases unsignedLiteral s.data with
      | none => simp
      | some w =>
        by_cases hw : w ≤ 4294967295
        · simp only [if_pos hw, Prod.mk.injEq, and_true, Option.some.injEq]
          constructor
          · intro h; subst h; exact ⟨rfl, hw⟩
          · intro h; exact h.1
        · simp only [if_neg hw, Prod.mk.injEq, Bool.false_eq_true, and_false,
            Option.some.injEq, false_iff]
          intro h
          exact hw (h.1 ▸ h.2)
  · intro v
    rw [parseMetaUint64_eq]
    cases obj.annotation key with
    | none => simp
    | some s =>
      simp only [Option.some_bind, Option.some.injEq, exists_eq_left']
      cases unsignedLiteral s.data with
      | none => simp
      | some w =>
        by_cases hw : w ≤ 18446744073709551615
        · simp only [if_pos hw, Prod.mk.injEq, and_true, Option.some.injEq]
          constructor
          · intro h; subst h; exact ⟨rfl, hw⟩
          · intro h; exact h.1
        · simp only [if_neg hw, Prod.mk.injEq, Bool.false_eq_true, and_false,
            Option.some.injEq, false_iff]
          intro h
          exact hw (h.1 ▸ h.2)
  · rw [parseMetaInt_eq]
    cases (obj.annotation key).bind (fun s => signedLiteral s.data) with
    | none => simp
    | some w => by_cases hw : -2147483648 ≤ w ∧ w ≤ 2147483647 <;> simp [hw]
  · rw [parseMetaUint_eq]
    cases (obj.annotation key).bind (fun s => unsignedLiteral s.data) with
    | none => simp
    | some w => by_cases hw : w ≤ 4294967295 <;> simp [hw]
  · rw [parseMetaUint64_eq]
    cases (obj.annotation key).bind (fun s => unsignedLiteral s.data) with
    | none => simp
    | some w => by_cases hw : w ≤ 18446744073709551615 <;> simp [hw]

/-- Witness of `parseMeta_numeric`: a value one above the signed 32-bit range. -/
theorem parseMeta_numeric_witness :
    parseMetaInt (objWith "k" "2147483648") "k" = (0, false) :=
  (parseMeta_numeric (objWith "k" "2147483648") "k").2.2.2.1 (by decide)

end Controller

namespace Argotunnel

/-! ### The index functions on a nil Ingress pointer -/

/-- C5 (the code at the failing input): a nil pointer of type `*v1beta1.Ingress` has
the dynamic type of an Ingress, yet on it neither index function returns anything,
neither a nil error nor the typed error: both panic. So it is false that every
object of Ingress type gets a nil error, and it is false that the functions return
an error exactly on the objects that are not a non-nil Ingress. -/
theorem index_error_nil_pointer (secret : Option resource) :
    (Obj.ingress none).isIngress = true
      ∧ (Obj.ingress none).typeName = "*v1beta1.Ingress"
      ∧ ingressSecretIndexFunc secret (.ingress none) = .panicked
      ∧ ingressServiceIndexFunc (.ingress none) = .panicked
      ∧ (¬ ∃ idx err, ingressSecretIndexFunc secret (.ingress none) = .returned idx err)
      ∧ (¬ ∃ idx err, ingressServiceIndexFunc (.ingress none) = .returned idx err)
      ∧ ¬ (∀ obj : Obj, obj.isIngress = true →
            (∃ idx, ingressSecretIndexFunc secret obj = .returned idx none)
              ∧ ∃ idx, ingressServiceIndexFunc obj = .returned idx none)
      ∧ ¬ (∀ obj : Obj,
            ((∃ idx msg, ingressSecretIndexFunc secret obj = .returned idx (some msg))
              ↔ ∀ ing, obj ≠ .ingress (some ing)))
      ∧ ¬ (∀ obj : Obj,
            ((∃ idx msg, ingressServiceIndexFunc obj = .returned idx (some msg))
              ↔ ∀ ing, obj ≠ .ingress (some ing))) := by
  refine ⟨rfl, rfl, rfl, rfl, ?_, ?_, ?_, ?_, ?_⟩
  · rintro ⟨idx, err, h⟩
    simp [ingressSecretIndexFunc] at h
  · rintro ⟨idx, err, h⟩
    simp [ingressServiceIndexFunc] at h
  · intro h
    obtain ⟨⟨idx, h1⟩, _⟩ := h (.ingress none) rfl
    simp [ingressSecretIndexFunc] at h1
  · intro h
    obtain ⟨idx, msg, h1⟩ := (h (.ingress none)).2 (by intro ing hc; cases hc)
    simp [ingressSecretIndexFunc] at h1
  · intro h
    obtain ⟨idx, msg, h1⟩ := (h (.ingress none)).2 (by intro ing hc; cases hc)
    simp [ingressServiceIndexFunc] at h1

/-- C16 (the code at the failing input): on a nil pointer of type `*v1beta1.Ingress`
both index functions panic, dereferencing it, and this is their only input that
panics: for every other object they return. -/
theorem index_nil_pointer_panics (secret : Option resource) (obj : Obj) :
    ingressSecretIndexFunc secret (.ingress none) = .panicked
      ∧ ingressServiceIndexFunc (.ingress none) = .panicked
      ∧ (ingressSecretIndexFunc secret obj = .panicked ↔ obj = .ingress none)
      ∧ (ingressServiceIndexFunc obj = .panicked ↔ obj = .ingress none) := by
  refine ⟨rfl, rfl, ?_, ?_⟩
  · cases obj with
    | nil => simp [ingressSecretIndexFunc]
    | other t => simp [ingressSecretIndexFunc]
    | ingress p => cases p <;> simp [ingressSecretIndexFunc]
  · cases obj with
    | nil => simp [ingressServiceIndexFunc]
    | other t => simp [ingressServiceIndexFunc]
    | ingress p => cases p <;> simp [ingressServiceIndexFunc]

end Argotunnel
